import Mathlib

/-!
# Fibonacci variants of RCpp_Integration

Shallow embedding of `src/recursive_fib.cpp`, `src/iterative_fib.cpp` and
`src/cached_fib.cpp`, and theorems about them.

Modelling conventions.
* Two models of `double` are used.  In the first (`Dbl`) a double is NaN or an
  exact rational number and addition is exact; it decides which slots are
  known, which calls throw, what is read and stored and in which order, for
  tables of arbitrary contents.  In the second (`IEEE.Dbl`) a double is NaN,
  +∞ or a finite natural-number value and every sum is rounded to nearest,
  ties to even, with overflow to +∞; the statements about the values
  returned by, and stored in, the cached and the iterative variant are made
  in it.
* A C++ `int` argument is an `Int`.  The only narrowing conversion of the
  source, `(int) cache.size()`, is modelled by `toInt32` (two's complement
  wrap to 32 bits).  The `int` additions of the recursive variant are exact
  in `fibCpp` and taken modulo 2^32 in `fibCpp32`.
* `std::vector<double>` is a `List`; `cache[i]` is a checked access, an
  access outside the vector yields the outcome `out_of_bounds`.
* A call of the member function returns its outcome together with the
  object after the call; the thrown `std::range_error` is the outcome
  `range_error`.
-/

namespace RcppFib

/-! ## Values -/

/-- A `double`: the NaN sentinel or an exact number. -/
inductive Dbl where
  | nan : Dbl
  | num (v : ℚ) : Dbl
  deriving DecidableEq

namespace Dbl

/-- The test `::isnan(d)`. -/
def isnan : Dbl → Bool
  | nan => true
  | num _ => false

/-- The `double` addition `a + b` without rounding; NaN is absorbing.  It is
the hardware sum as long as that sum is exact; `IEEE.Dbl.add` rounds. -/
def add : Dbl → Dbl → Dbl
  | num a, num b => num (a + b)
  | _, _ => nan

/-- The conversion `int → double`. -/
def ofInt (x : Int) : Dbl := num (x : ℚ)

end Dbl

/-- The conversion `(int) n` of an unsigned size: wrap to 32-bit two's complement. -/
def toInt32 (n : Nat) : Int :=
  ((n : Int) + 2 ^ 31) % 2 ^ 32 - 2 ^ 31

/-- The Fibonacci sequence of the glossary: F(0)=0, F(1)=1, F(n)=F(n-1)+F(n-2). -/
def F : Nat → Nat
  | 0 => 0
  | 1 => 1
  | n + 2 => F (n + 1) + F n

/-! ## `src/cached_fib.cpp` -/

/-- The class `Fib`: its only member is the vector `cache`. -/
structure Fib where
  cache : List Dbl
  deriving DecidableEq

/-- How a call ends: a returned `double`, the thrown `std::range_error`, or an
access outside the vector. -/
inductive Outcome where
  | value (d : Dbl) : Outcome
  | range_error : Outcome
  | out_of_bounds : Outcome
  deriving DecidableEq

namespace Fib

/-- The read `cache[i]`. -/
def read (f : Fib) (i : Int) : Option Dbl :=
  if i < 0 then none else f.cache[i.toNat]?

/-- The store `cache[i] = v`. -/
def write (f : Fib) (i : Int) (v : Dbl) : Option Fib :=
  if i < 0 then none
  else if i.toNat < f.cache.length then some ⟨f.cache.set i.toNat v⟩
  else none

/-- The constructor `Fib(unsigned int n)`: `resize(n)`, fill with NaN, then
the two unguarded stores `cache[0] = 0.0` and `cache[1] = 1.0`. -/
def new (n : Nat) : Option Fib :=
  let f0 : Fib := ⟨List.replicate n Dbl.nan⟩
  (f0.write 0 (Dbl.num 0)).bind fun f1 => f1.write 1 (Dbl.num 1)

/-- The member function `double Fib::cached_fibCpp(int x)`.  In
`cached_fibCpp(x - 1) + cached_fibCpp(x - 2)` the left operand is evaluated
first; an exception leaves the called function at once. -/
def cached_fibCpp (f : Fib) (x : Int) : Outcome × Fib :=
  if x < 0 then (.value .nan, f)
  else if x ≥ toInt32 f.cache.length then (.range_error, f)
  else if x < 2 then (.value (Dbl.ofInt x), f)
  else
    match f.read x with
    | none => (.out_of_bounds, f)
    | some c =>
      if !c.isnan then (.value c, f)
      else
        match f.cached_fibCpp (x - 1) with
        | (.value a, f1) =>
          match f1.cached_fibCpp (x - 2) with
          | (.value b, f2) =>
            match f2.write x (a.add b) with
            | none => (.out_of_bounds, f2)
            | some f3 =>
              match f3.read x with
              | none => (.out_of_bounds, f3)
              | some r => (.value r, f3)
          | (o, f2) => (o, f2)
        | (o, f1) => (o, f1)
termination_by x.toNat
decreasing_by
  all_goals omega

end Fib

/-- What an instrumented run records, in program order: the reads and stores
of `cache`, the additions, and the nested calls (with their argument). -/
inductive Event where
  | read (i : Int) : Event
  | write (i : Int) (v : Dbl) : Event
  | add (a b : Dbl) : Event
  | call (x : Int) : Event
  deriving DecidableEq

namespace Fib

/-- The member function `cached_fibCpp` again, statement for statement, also
returning the events of the run. -/
def cached_fibCppLog (f : Fib) (x : Int) : Outcome × Fib × List Event :=
  if x < 0 then (.value .nan, f, [])
  else if x ≥ toInt32 f.cache.length then (.range_error, f, [])
  else if x < 2 then (.value (Dbl.ofInt x), f, [])
  else
    match f.read x with
    | none => (.out_of_bounds, f, [.read x])
    | some c =>
      if !c.isnan then (.value c, f, [.read x, .read x])
      else
        match f.cached_fibCppLog (x - 1) with
        | (.value a, f1, l1) =>
          match f1.cached_fibCppLog (x - 2) with
          | (.value b, f2, l2) =>
            match f2.write x (a.add b) with
            | none =>
              (.out_of_bounds, f2,
                .read x :: .call (x - 1) :: l1 ++ .call (x - 2) :: l2
                  ++ [.add a b, .write x (a.add b)])
            | some f3 =>
              match f3.read x with
              | none =>
                (.out_of_bounds, f3,
                  .read x :: .call (x - 1) :: l1 ++ .call (x - 2) :: l2
                    ++ [.add a b, .write x (a.add b), .read x])
              | some r =>
                (.value r, f3,
                  .read x :: .call (x - 1) :: l1 ++ .call (x - 2) :: l2
                    ++ [.add a b, .write x (a.add b), .read x])
          | (o, f2, l2) => (o, f2, .read x :: .call (x - 1) :: l1 ++ .call (x - 2) :: l2)
        | (o, f1, l1) => (o, f1, .read x :: .call (x - 1) :: l1)
termination_by x.toNat
decreasing_by
  all_goals omega

end Fib

/-- A cache is reachable from `Fib(N)` when it is the constructed object or
the object left by a call of `cached_fibCpp`, whatever the argument and
however the call ended, on a reachable one. -/
inductive Reachable (N : Nat) : Fib → Prop
  | init (f : Fib) : Fib.new N = some f → Reachable N f
  | step (f : Fib) (x : Int) : Reachable N f → Reachable N (f.cached_fibCpp x).2

/-- The exported function `double cached_fibCpp(const int a)`: the call
`f.cached_fibCpp(a)` on the global object `g`, constructed by `Fib(2000)`. -/
def cached_fibCpp (g : Fib) (a : Int) : Outcome × Fib :=
  g.cached_fibCpp a

/-! ## `src/iterative_fib.cpp` -/

/-- The locals of `iter_fibCpp` inside the loop; `runs` counts the executions
of the loop body. -/
structure IterState where
  i : Int
  first : Dbl
  second : Dbl
  third : Dbl
  runs : Nat

/-- The loop `for (...; i < x; i++) { third = first + second; first = second;
second = third; }` from the state `s` on. -/
def iterLoop (x : Int) (s : IterState) : IterState :=
  if h : s.i < x then
    let third := s.first.add s.second
    let first := s.second
    let second := third
    iterLoop x ⟨s.i + 1, first, second, third, s.runs + 1⟩
  else s
termination_by (x - s.i).toNat
decreasing_by
  omega

/-- The state in which `iter_fibCpp` enters its loop. -/
def iterInit : IterState := ⟨0, Dbl.num 0, Dbl.num 1, Dbl.num 0, 0⟩

/-- The function `double iter_fibCpp(const int x)`. -/
def iter_fibCpp (x : Int) : Dbl :=
  if x < 0 then Dbl.nan
  else if x < 2 then Dbl.ofInt x
  else (iterLoop x iterInit).first

/-! ## `src/recursive_fib.cpp` -/

/-- The function `int fibCpp(const int x)` over the mathematical integers
(`fibCpp32` has the 32-bit additions of the source; the two agree while no
sum leaves the range of `int`).  The recursion need not end, so `fuel` bounds
its depth: `none` means that the bound was reached before a result was
produced. -/
def fibCpp : Nat → Int → Option Int
  | 0, _ => none
  | fuel + 1, x =>
    if x = 0 then some 0
    else if x = 1 then some 1
    else
      match fibCpp fuel (x - 1), fibCpp fuel (x - 2) with
      | some a, some b => some (a + b)
      | _, _ => none

/-! ## Reachable tables -/

/-- The table of capacity `N` whose slots `0, ..., k` hold the Fibonacci
numbers and whose other slots are unknown. -/
def filled (N k : Nat) : Fib :=
  ⟨(List.range N).map fun i => if i ≤ k then Dbl.num (F i) else Dbl.nan⟩

/-! ## Further instrumented copies and specification-level definitions -/

namespace Fib

/-- The member function `cached_fibCpp` with the other order of evaluation of
`cached_fibCpp(x - 1) + cached_fibCpp(x - 2)`: the right operand is evaluated
first.  The sum is still left operand plus right operand. -/
def cached_fibCppRev (f : Fib) (x : Int) : Outcome × Fib :=
  if x < 0 then (.value .nan, f)
  else if x ≥ toInt32 f.cache.length then (.range_error, f)
  else if x < 2 then (.value (Dbl.ofInt x), f)
  else
    match f.read x with
    | none => (.out_of_bounds, f)
    | some c =>
      if !c.isnan then (.value c, f)
      else
        match f.cached_fibCppRev (x - 2) with
        | (.value b, f1) =>
          match f1.cached_fibCppRev (x - 1) with
          | (.value a, f2) =>
            match f2.write x (a.add b) with
            | none => (.out_of_bounds, f2)
            | some f3 =>
              match f3.read x with
              | none => (.out_of_bounds, f3)
              | some r => (.value r, f3)
          | (o, f2) => (o, f2)
        | (o, f1) => (o, f1)
termination_by x.toNat
decreasing_by
  all_goals omega

/-- The member function `cached_fibCpp` again, also returning the greatest
nesting depth of the calls it makes: 0 when it makes none, and one more than
the depth of the deeper operand otherwise. -/
def cached_fibCppDepth (f : Fib) (x : Int) : Outcome × Fib × Nat :=
  if x < 0 then (.value .nan, f, 0)
  else if x ≥ toInt32 f.cache.length then (.range_error, f, 0)
  else if x < 2 then (.value (Dbl.ofInt x), f, 0)
  else
    match f.read x with
    | none => (.out_of_bounds, f, 0)
    | some c =>
      if !c.isnan then (.value c, f, 0)
      else
        match f.cached_fibCppDepth (x - 1) with
        | (.value a, f1, d1) =>
          match f1.cached_fibCppDepth (x - 2) with
          | (.value b, f2, d2) =>
            match f2.write x (a.add b) with
            | none => (.out_of_bounds, f2, max (d1 + 1) (d2 + 1))
            | some f3 =>
              match f3.read x with
              | none => (.out_of_bounds, f3, max (d1 + 1) (d2 + 1))
              | some r => (.value r, f3, max (d1 + 1) (d2 + 1))
          | (o, f2, d2) => (o, f2, max (d1 + 1) (d2 + 1))
        | (o, f1, d1) => (o, f1, d1 + 1)
termination_by x.toNat
decreasing_by
  all_goals omega

end Fib

/-- The reduction of an integer to the 32-bit two's complement range. -/
def wrap32 (z : Int) : Int :=
  (z + 2 ^ 31) % 2 ^ 32 - 2 ^ 31

/-- The function `int fibCpp(const int x)` with `int` of 32 bits: every
addition is taken modulo 2^32.  The second component tells whether some
addition of the evaluation left the range of `int`. -/
def fibCpp32 : Nat → Int → Option (Int × Bool)
  | 0, _ => none
  | fuel + 1, x =>
    if x = 0 then some (0, false)
    else if x = 1 then some (1, false)
    else
      match fibCpp32 fuel (x - 1), fibCpp32 fuel (x - 2) with
      | some (a, oa), some (b, ob) =>
        some (wrap32 (a + b), oa || ob || decide (wrap32 (a + b) ≠ a + b))
      | _, _ => none

/-- The arguments of the calls of `fibCpp` in the call tree of `fibCpp(x)`,
down to the depth `fuel`, the call `fibCpp(x)` itself included. -/
def fibCppArgs : Nat → Int → List Int
  | 0, _ => []
  | fuel + 1, x =>
    if x = 0 then [x]
    else if x = 1 then [x]
    else x :: (fibCppArgs fuel (x - 1) ++ fibCppArgs fuel (x - 2))

/-! ## The same sources with IEEE double arithmetic

The definitions above add doubles exactly.  The ones below round every sum as
the hardware does.  A double of this program is NaN, +∞ or a finite value
that is a natural number: the locals and the table start from `0.0`, `1.0`
and NaN, `return x` converts `0` or `1`, and every other value is a sum of two
such values. -/

namespace IEEE

/-- A `double` as this program can hold it: NaN, +∞, or the finite double of
value `n`. -/
inductive Dbl where
  | nan : Dbl
  | inf : Dbl
  | fin (n : Nat) : Dbl
  deriving DecidableEq

/-- The number of low bits of `n` that do not fit a significand of 53 bits:
the least `s` with `n / 2^s < 2^53` (`fuel` bounds the search; `n` itself is
enough). -/
def dropBits : Nat → Nat → Nat
  | 0, _ => 0
  | fuel + 1, n => if n < 2 ^ 53 then 0 else dropBits fuel (n / 2) + 1

/-- The multiple of `2^s` nearest to `n`, the even multiple in a tie. -/
def roundTo (s n : Nat) : Nat :=
  let q := n / 2 ^ s
  let r := n % 2 ^ s
  (if 2 * r > 2 ^ s ∨ (2 * r = 2 ^ s ∧ q % 2 = 1) then q + 1 else q) * 2 ^ s

/-- The least natural number above every finite double, `2^1024`. -/
def overflowBound : Nat :=
  179769313486231590772930519078902473361797697894230657273430081157732675805500963132708477322407536021120113879871393357658789768814416622492847430639474124377767893424865485276302219601246094119453082952085005768838150682342462881473913110540827237163350510684586298239947245938479716304835356329624224137216

/-- The double nearest to the natural number `n`: round to nearest, ties to
even, with a significand of 53 bits; from `2^1024` on the result is +∞. -/
def round53 (n : Nat) : Dbl :=
  if roundTo (dropBits n n) n < overflowBound then .fin (roundTo (dropBits n n) n) else .inf

namespace Dbl

/-- The test `::isnan(d)`. -/
def isnan : Dbl → Bool
  | nan => true
  | _ => false

/-- The `double` addition `a + b`: the exact sum, rounded. -/
def add : Dbl → Dbl → Dbl
  | fin a, fin b => round53 (a + b)
  | nan, _ => nan
  | _, nan => nan
  | _, _ => inf

/-- The conversion `int → double` of `return x`, which is reached with
`0 ≤ x < 2` only. -/
def ofInt (x : Int) : Dbl := fin x.toNat

end Dbl

/-- The Fibonacci recurrence evaluated in `double` arithmetic, operands in the
order of `cached_fibCpp(x - 1) + cached_fibCpp(x - 2)`. -/
def Fd : Nat → Dbl
  | 0 => .fin 0
  | 1 => .fin 1
  | n + 2 => (Fd (n + 1)).add (Fd n)

/-- The class `Fib`: its only member is the vector `cache`. -/
structure Fib where
  cache : List Dbl
  deriving DecidableEq

/-- How a call ends: a returned `double`, the thrown `std::range_error`, or an
access outside the vector. -/
inductive Outcome where
  | value (d : Dbl) : Outcome
  | range_error : Outcome
  | out_of_bounds : Outcome
  deriving DecidableEq

/-- What a run records, in program order: the reads and stores of `cache`,
the additions, and the nested calls (with their argument). -/
inductive Event where
  | read (i : Int) : Event
  | write (i : Int) (v : Dbl) : Event
  | add (a b : Dbl) : Event
  | call (x : Int) : Event
  deriving DecidableEq

namespace Fib

/-- The read `cache[i]`. -/
def read (f : Fib) (i : Int) : Option Dbl :=
  if i < 0 then none else f.cache[i.toNat]?

/-- The store `cache[i] = v`. -/
def write (f : Fib) (i : Int) (v : Dbl) : Option Fib :=
  if i < 0 then none
  else if i.toNat < f.cache.length then some ⟨f.cache.set i.toNat v⟩
  else none

/-- The constructor `Fib(unsigned int n)`: `resize(n)`, fill with NaN, then
the two unguarded stores `cache[0] = 0.0` and `cache[1] = 1.0`. -/
def new (n : Nat) : Option Fib :=
  let f0 : Fib := ⟨List.replicate n Dbl.nan⟩
  (f0.write 0 (Dbl.fin 0)).bind fun f1 => f1.write 1 (Dbl.fin 1)

/-- The member function `double Fib::cached_fibCpp(int x)`, statement for
statement: the outcome, the object after the call and the events of the run.
The left operand of the sum is evaluated first; an exception leaves the called
function at once. -/
def cached_fibCpp (f : Fib) (x : Int) : Outcome × Fib × List Event :=
  if x < 0 then (.value .nan, f, [])
  else if x ≥ toInt32 f.cache.length then (.range_error, f, [])
  else if x < 2 then (.value (Dbl.ofInt x), f, [])
  else
    match f.read x with
    | none => (.out_of_bounds, f, [.read x])
    | some c =>
      if !c.isnan then (.value c, f, [.read x, .read x])
      else
        match f.cached_fibCpp (x - 1) with
        | (.value a, f1, l1) =>
          match f1.cached_fibCpp (x - 2) with
          | (.value b, f2, l2) =>
            match f2.write x (a.add b) with
            | none =>
              (.out_of_bounds, f2,
                .read x :: .call (x - 1) :: l1 ++ .call (x - 2) :: l2
                  ++ [.add a b, .write x (a.add b)])
            | some f3 =>
              match f3.read x with
              | none =>
                (.out_of_bounds, f3,
                  .read x :: .call (x - 1) :: l1 ++ .call (x - 2) :: l2
                    ++ [.add a b, .write x (a.add b), .read x])
              | some r =>
                (.value r, f3,
                  .read x :: .call (x - 1) :: l1 ++ .call (x - 2) :: l2
                    ++ [.add a b, .write x (a.add b), .read x])
          | (o, f2, l2) => (o, f2, .read x :: .call (x - 1) :: l1 ++ .call (x - 2) :: l2)
        | (o, f1, l1) => (o, f1, .read x :: .call (x - 1) :: l1)
termination_by x.toNat
decreasing_by
  all_goals omega

end Fib

/-- A cache is reachable from `Fib(N)` when it is the constructed object or
the object left by a call of `cached_fibCpp`, whatever the argument and
however the call ended, on a reachable one. -/
inductive Reachable (N : Nat) : Fib → Prop
  | init (f : Fib) : Fib.new N = some f → Reachable N f
  | step (f : Fib) (x : Int) : Reachable N f → Reachable N (f.cached_fibCpp x).2.1

/-- The cache `g` is `f` after zero or more further calls of `cached_fibCpp`,
whatever their arguments. -/
inductive ReachableFrom (f : Fib) : Fib → Prop
  | refl : ReachableFrom f f
  | step (g : Fib) (x : Int) : ReachableFrom f g → ReachableFrom f (g.cached_fibCpp x).2.1

/-- The table of capacity `N` whose slots `0, ..., k` hold the Fibonacci
numbers as `double` arithmetic computes them and whose other slots are
unknown. -/
def filled (N k : Nat) : Fib :=
  ⟨(List.range N).map fun i => if i ≤ k then Fd i else Dbl.nan⟩

/-- The locals of `iter_fibCpp` inside the loop; `runs` counts the executions
of the loop body. -/
structure IterState where
  i : Int
  first : Dbl
  second : Dbl
  third : Dbl
  runs : Nat

/-- The loop `for (...; i < x; i++) { third = first + second; first = second;
second = third; }` from the state `s` on. -/
def iterLoop (x : Int) (s : IterState) : IterState :=
  if h : s.i < x then
    let third := s.first.add s.second
    let first := s.second
    let second := third
    iterLoop x ⟨s.i + 1, first, second, third, s.runs + 1⟩
  else s
termination_by (x - s.i).toNat
decreasing_by
  omega

/-- The state in which `iter_fibCpp` enters its loop. -/
def iterInit : IterState := ⟨0, Dbl.fin 0, Dbl.fin 1, Dbl.fin 0, 0⟩

/-- The function `double iter_fibCpp(const int x)`. -/
def iter_fibCpp (x : Int) : Dbl :=
  if x < 0 then Dbl.nan
  else if x < 2 then Dbl.ofInt x
  else (iterLoop x iterInit).first

end IEEE

/-! ## Unfolding lemmas -/

theorem toInt32_le (n : Nat) : toInt32 n ≤ (n : Int) := by
  unfold toInt32
  omega

theorem toInt32_of_lt (n : Nat) (h : n < 2 ^ 31) : toInt32 n = (n : Int) := by
  unfold toInt32
  omega

theorem F_add_two (n : Nat) : F (n + 2) = F (n + 1) + F n := rfl

namespace Fib

theorem read_eq (f : Fib) (x : Int) (h : 0 ≤ x) : f.read x = f.cache[x.toNat]? := by
  unfold read
  simp [not_lt.2 h]

theorem write_eq (f : Fib) (x : Int) (v : Dbl) (h : 0 ≤ x)
    (hlt : x.toNat < f.cache.length) : f.write x v = some ⟨f.cache.set x.toNat v⟩ := by
  unfold write
  simp [not_lt.2 h, hlt]

theorem cached_fibCpp_neg (f : Fib) (x : Int) (h : x < 0) :
    f.cached_fibCpp x = (.value .nan, f) := by
  rw [cached_fibCpp]
  simp [h]

theorem cached_fibCpp_range (f : Fib) (x : Int) (h0 : 0 ≤ x)
    (h : toInt32 f.cache.length ≤ x) : f.cached_fibCpp x = (.range_error, f) := by
  rw [cached_fibCpp]
  simp [not_lt.2 h0, h]

theorem cached_fibCpp_small (f : Fib) (x : Int) (h0 : 0 ≤ x)
    (h : x < toInt32 f.cache.length) (h2 : x < 2) :
    f.cached_fibCpp x = (.value (Dbl.ofInt x), f) := by
  rw [cached_fibCpp]
  simp [not_lt.2 h0, h, h2]

theorem cached_fibCpp_hit (f : Fib) (x : Int) (u : ℚ) (h2 : 2 ≤ x)
    (h : x < toInt32 f.cache.length) (hr : f.read x = some (.num u)) :
    f.cached_fibCpp x = (.value (.num u), f) := by
  rw [cached_fibCpp]
  have h0 : ¬ x < 0 := by omega
  have h2 : ¬ x < 2 := by omega
  simp [h0, h, h2, hr, Dbl.isnan]

theorem cached_fibCpp_miss (f f1 f2 f3 : Fib) (x : Int) (a b r : Dbl) (h2 : 2 ≤ x)
    (h : x < toInt32 f.cache.length) (hr : f.read x = some .nan)
    (e1 : f.cached_fibCpp (x - 1) = (.value a, f1))
    (e2 : f1.cached_fibCpp (x - 2) = (.value b, f2))
    (hw : f2.write x (a.add b) = some f3) (hr3 : f3.read x = some r) :
    f.cached_fibCpp x = (.value r, f3) := by
  rw [cached_fibCpp]
  have h0 : ¬ x < 0 := by omega
  have h2 : ¬ x < 2 := by omega
  simp [h0, h, h2, hr, Dbl.isnan, e1, e2, hw, hr3]

/-- On a table with arbitrary contents, a call with `0 ≤ x` below the capacity
bound returns a number; the table keeps its length, keeps every known slot,
keeps every slot above `x`, and for `2 ≤ x` holds the result in slot `x`. -/
theorem cached_fibCpp_ok (n : Nat) : ∀ (x : Int) (f : Fib), x.toNat = n → 0 ≤ x →
    x < toInt32 f.cache.length →
    ∃ (v : ℚ) (f' : Fib), f.cached_fibCpp x = (.value (.num v), f') ∧
      f'.cache.length = f.cache.length ∧
      (2 ≤ x → f'.read x = some (.num v)) ∧
      (∀ (i : Nat) (u : ℚ), f.cache[i]? = some (.num u) → f'.cache[i]? = some (.num u)) ∧
      (∀ i : Nat, x.toNat < i → f'.cache[i]? = f.cache[i]?) := by
  induction n using Nat.strong_induction_on with
  | _ n ih =>
    intro x f hn h0 hlt
    have hle := toInt32_le f.cache.length
    by_cases h2 : x < 2
    · exact ⟨(x : ℚ), f, cached_fibCpp_small f x h0 hlt h2, rfl, fun h => by omega,
        fun _ _ h => h, fun _ _ => rfl⟩
    · have h2 : 2 ≤ x := by omega
      have hidx : x.toNat < f.cache.length := by omega
      have hread : f.read x = some (f.cache[x.toNat]) := by
        rw [read_eq f x h0, List.getElem?_eq_getElem hidx]
      cases hc : f.cache[x.toNat] with
      | num u =>
        rw [hc] at hread
        exact ⟨u, f, cached_fibCpp_hit f x u h2 hlt hread, rfl, fun _ => hread,
          fun _ _ h => h, fun _ _ => rfl⟩
      | nan =>
        rw [hc] at hread
        obtain ⟨a, f1, e1, len1, -, keep1, above1⟩ :=
          ih (x - 1).toNat (by omega) (x - 1) f rfl (by omega) (by omega)
        obtain ⟨b, f2, e2, len2, -, keep2, above2⟩ :=
          ih (x - 2).toNat (by omega) (x - 2) f1 rfl (by omega) (by rw [len1]; omega)
        have hidx2 : x.toNat < f2.cache.length := by rw [len2, len1]; exact hidx
        have hw := write_eq f2 x ((Dbl.num a).add (Dbl.num b)) h0 hidx2
        have hr3 : (Fib.mk (f2.cache.set x.toNat ((Dbl.num a).add (Dbl.num b)))).read x
            = some (.num (a + b)) := by
          rw [read_eq _ x h0]
          simp [hidx2, Dbl.add]
        refine ⟨a + b, _, cached_fibCpp_miss f f1 f2 _ x _ _ _ h2 hlt hread e1 e2 hw hr3,
          ?_, fun _ => hr3, ?_, ?_⟩
        · simp [len2, len1]
        · intro i u hi
          by_cases hix : x.toNat = i
          · subst hix
            rw [List.getElem?_eq_getElem hidx, hc] at hi
            cases hi
          · simp only [List.getElem?_set_ne hix]
            exact keep2 i u (keep1 i u hi)
        · intro i hi
          have hix : x.toNat ≠ i := by omega
          simp only [List.getElem?_set_ne hix]
          rw [above2 i (by omega), above1 i (by omega)]

theorem cached_fibCppLog_neg (f : Fib) (x : Int) (h : x < 0) :
    f.cached_fibCppLog x = (.value .nan, f, []) := by
  rw [cached_fibCppLog]
  simp [h]

theorem cached_fibCppLog_range (f : Fib) (x : Int) (h0 : 0 ≤ x)
    (h : toInt32 f.cache.length ≤ x) : f.cached_fibCppLog x = (.range_error, f, []) := by
  rw [cached_fibCppLog]
  simp [not_lt.2 h0, h]

theorem cached_fibCppLog_small (f : Fib) (x : Int) (h0 : 0 ≤ x)
    (h : x < toInt32 f.cache.length) (h2 : x < 2) :
    f.cached_fibCppLog x = (.value (Dbl.ofInt x), f, []) := by
  rw [cached_fibCppLog]
  simp [not_lt.2 h0, h, h2]

theorem cached_fibCppLog_hit (f : Fib) (x : Int) (u : ℚ) (h2 : 2 ≤ x)
    (h : x < toInt32 f.cache.length) (hr : f.read x = some (.num u)) :
    f.cached_fibCppLog x = (.value (.num u), f, [.read x, .read x]) := by
  rw [cached_fibCppLog]
  have h0 : ¬ x < 0 := by omega
  have h2 : ¬ x < 2 := by omega
  simp [h0, h, h2, hr, Dbl.isnan]

theorem cached_fibCppLog_miss (f f1 f2 f3 : Fib) (x : Int) (a b r : Dbl)
    (l1 l2 : List Event) (h2 : 2 ≤ x)
    (h : x < toInt32 f.cache.length) (hr : f.read x = some .nan)
    (e1 : f.cached_fibCppLog (x - 1) = (.value a, f1, l1))
    (e2 : f1.cached_fibCppLog (x - 2) = (.value b, f2, l2))
    (hw : f2.write x (a.add b) = some f3) (hr3 : f3.read x = some r) :
    f.cached_fibCppLog x = (.value r, f3,
      .read x :: .call (x - 1) :: l1 ++ .call (x - 2) :: l2
        ++ [.add a b, .write x (a.add b), .read x]) := by
  rw [cached_fibCppLog]
  have h0 : ¬ x < 0 := by omega
  have h2 : ¬ x < 2 := by omega
  simp [h0, h, h2, hr, Dbl.isnan, e1, e2, hw, hr3]

/-- The instrumented function below the capacity bound: it returns what
`cached_fibCpp` returns, and every nested call it records has an argument in
`[0, x)`. -/
theorem cached_fibCppLog_ok (n : Nat) : ∀ (x : Int) (f : Fib), x.toNat = n → 0 ≤ x →
    x < toInt32 f.cache.length →
    ∃ l : List Event, f.cached_fibCppLog x = ((f.cached_fibCpp x).1, (f.cached_fibCpp x).2, l) ∧
      ∀ y : Int, Event.call y ∈ l → 0 ≤ y ∧ y < x := by
  induction n using Nat.strong_induction_on with
  | _ n ih =>
    intro x f hn h0 hlt
    have hle := toInt32_le f.cache.length
    by_cases h2 : x < 2
    · refine ⟨[], ?_, by simp⟩
      rw [cached_fibCppLog_small f x h0 hlt h2, cached_fibCpp_small f x h0 hlt h2]
    · have h2 : 2 ≤ x := by omega
      have hidx : x.toNat < f.cache.length := by omega
      have hread : f.read x = some (f.cache[x.toNat]) := by
        rw [read_eq f x h0, List.getElem?_eq_getElem hidx]
      cases hc : f.cache[x.toNat] with
      | num u =>
        rw [hc] at hread
        refine ⟨[.read x, .read x], ?_, by simp⟩
        rw [cached_fibCppLog_hit f x u h2 hlt hread, cached_fibCpp_hit f x u h2 hlt hread]
      | nan =>
        rw [hc] at hread
        obtain ⟨a, f1, e1, len1, -, -, -⟩ :=
          cached_fibCpp_ok (x - 1).toNat (x - 1) f rfl (by omega) (by omega)
        obtain ⟨b, f2, e2, len2, -, -, -⟩ :=
          cached_fibCpp_ok (x - 2).toNat (x - 2) f1 rfl (by omega) (by rw [len1]; omega)
        obtain ⟨l1, g1, c1⟩ := ih (x - 1).toNat (by omega) (x - 1) f rfl (by omega) (by omega)
        obtain ⟨l2, g2, c2⟩ :=
          ih (x - 2).toNat (by omega) (x - 2) f1 rfl (by omega) (by rw [len1]; omega)
        rw [e1] at g1
        rw [e2] at g2
        have hidx2 : x.toNat < f2.cache.length := by rw [len2, len1]; exact hidx
        have hw := write_eq f2 x ((Dbl.num a).add (Dbl.num b)) h0 hidx2
        have hr3 : (Fib.mk (f2.cache.set x.toNat ((Dbl.num a).add (Dbl.num b)))).read x
            = some (.num (a + b)) := by
          rw [read_eq _ x h0]
          simp [hidx2, Dbl.add]
        refine ⟨.read x :: .call (x - 1) :: l1 ++ .call (x - 2) :: l2
          ++ [.add (.num a) (.num b), .write x ((Dbl.num a).add (.num b)), .read x], ?_, ?_⟩
        · rw [cached_fibCppLog_miss f f1 f2 _ x _ _ _ l1 l2 h2 hlt hread g1 g2 hw hr3,
            cached_fibCpp_miss f f1 f2 _ x _ _ _ h2 hlt hread e1 e2 hw hr3]
        · intro y hy
          simp only [List.mem_cons, List.mem_append, List.mem_singleton, Event.call.injEq,
            reduceCtorEq, false_or, or_false, List.not_mem_nil] at hy
          rcases hy with (rfl | hy) | rfl | hy
          · omega
          · have := c1 y hy
            omega
          · omega
          · have := c2 y hy
            omega

/-- Erasing the log of the instrumented function gives `cached_fibCpp`. -/
theorem cached_fibCppLog_erase (f : Fib) (x : Int) :
    (f.cached_fibCppLog x).1 = (f.cached_fibCpp x).1 ∧
      (f.cached_fibCppLog x).2.1 = (f.cached_fibCpp x).2 := by
  by_cases h0 : x < 0
  · rw [cached_fibCppLog_neg f x h0, cached_fibCpp_neg f x h0]
    exact ⟨rfl, rfl⟩
  · by_cases h : toInt32 f.cache.length ≤ x
    · rw [cached_fibCppLog_range f x (by omega) h, cached_fibCpp_range f x (by omega) h]
      exact ⟨rfl, rfl⟩
    · obtain ⟨l, e, -⟩ := cached_fibCppLog_ok x.toNat x f rfl (by omega) (by omega)
      rw [e]
      exact ⟨rfl, rfl⟩

end Fib

/-! ## The tables reachable from the constructor -/

theorem filled_length (N k : Nat) : (filled N k).cache.length = N := by
  simp [filled]

theorem filled_getElem? (N k i : Nat) (h : i < N) :
    (filled N k).cache[i]? = some (if i ≤ k then Dbl.num (F i) else Dbl.nan) := by
  simp [filled, List.getElem?_range h]

theorem Fib.new_eq (N : Nat) (h : 2 ≤ N) : Fib.new N = some (filled N 1) := by
  have h0 : (0 : Int).toNat < (List.replicate N Dbl.nan).length := by simp; omega
  have h1 : (1 : Int).toNat <
      (Fib.mk ((List.replicate N Dbl.nan).set (0 : Int).toNat (Dbl.num 0))).cache.length := by
    simp; omega
  unfold Fib.new
  simp only [Fib.write_eq _ 0 _ (le_refl 0) h0, Option.some_bind,
    Fib.write_eq _ 1 _ (by decide) h1, Option.some.injEq]
  unfold filled
  congr 1
  apply List.ext_getElem (by simp)
  intro i h₁ h₂
  rcases i with _ | _ | i
  · simp [F, List.getElem_set]
  · simp [F, List.getElem_set]
  · simp [List.getElem_set]

theorem filled_write (N k : Nat) (h : k + 1 < N) :
    (filled N k).write ((k + 1 : Nat) : Int) (Dbl.num (F (k + 1))) = some (filled N (k + 1)) := by
  rw [Fib.write_eq _ _ _ (Int.ofNat_nonneg _) (by simpa [filled_length] using h)]
  simp only [Int.toNat_ofNat, Option.some.injEq]
  unfold filled
  congr 1
  apply List.ext_getElem (by simp)
  intro i h₁ h₂
  by_cases hik : k + 1 = i
  · subst hik
    simp
  · have hiff : i ≤ k + 1 ↔ i ≤ k := by omega
    simp [List.getElem_set, hik, hiff]

/-- A call on the table `filled N k` with `0 ≤ n` below the capacity bound
returns `F n` and leaves `filled N (max k n)`. -/
theorem filled_call (N : Nat) (n : Nat) : ∀ k : Nat, 1 ≤ k → k < N →
    (n : Int) < toInt32 N →
    (filled N k).cached_fibCpp (n : Int) = (.value (.num (F n)), filled N (max k n)) := by
  induction n using Nat.strong_induction_on with
  | _ n ih =>
    intro k hk hkN hlt
    have hle := toInt32_le N
    have hlt' : (n : Int) < toInt32 (filled N k).cache.length := by
      rw [filled_length]
      exact hlt
    rcases n with _ | _ | j
    · rw [Fib.cached_fibCpp_small _ _ (by simp) hlt' (by simp)]
      simp [Dbl.ofInt, F]
    · rw [Fib.cached_fibCpp_small _ _ (by simp) hlt' (by simp)]
      simp [Dbl.ofInt, F, hk]
    · have hjN : j + 2 < N := by omega
      have hread : (filled N k).read ((j + 2 : Nat) : Int) =
          some (if j + 2 ≤ k then Dbl.num (F (j + 2)) else Dbl.nan) := by
        rw [Fib.read_eq _ _ (Int.ofNat_nonneg _), Int.toNat_ofNat, filled_getElem? N k _ hjN]
      by_cases hjk : j + 2 ≤ k
      · rw [if_pos hjk] at hread
        rw [Fib.cached_fibCpp_hit _ _ _ (by omega) hlt' hread, max_eq_left hjk]
      · rw [if_neg hjk] at hread
        have e1 := ih (j + 1) (by omega) k hk hkN (by omega)
        have e2 := ih j (by omega) (j + 1) (by omega) (by omega) (by omega)
        rw [max_eq_right (by omega : k ≤ j + 1)] at e1
        rw [max_eq_left (by omega : j ≤ j + 1)] at e2
        have c1 : (((j + 2 : Nat) : Int) - 1) = ((j + 1 : Nat) : Int) := by omega
        have c2 : (((j + 2 : Nat) : Int) - 2) = ((j : Nat) : Int) := by omega
        rw [← c1] at e1
        rw [← c2] at e2
        have hsum : (Dbl.num (F (j + 1))).add (Dbl.num (F j)) = Dbl.num (F (j + 2)) := by
          simp [Dbl.add, F_add_two]
        have hw : (filled N (j + 1)).write ((j + 2 : Nat) : Int)
            ((Dbl.num (F (j + 1))).add (Dbl.num (F j))) = some (filled N (j + 2)) := by
          rw [hsum]
          exact filled_write N (j + 1) hjN
        have hr3 : (filled N (j + 2)).read ((j + 2 : Nat) : Int) = some (Dbl.num (F (j + 2))) := by
          rw [Fib.read_eq _ _ (Int.ofNat_nonneg _), Int.toNat_ofNat, filled_getElem? N _ _ hjN]
          simp
        rw [Fib.cached_fibCpp_miss _ _ _ _ _ _ _ _ (by omega) hlt' hread e1 e2 hw hr3,
          max_eq_right (by omega : k ≤ j + 2)]

/-- Whatever the argument, a call on `filled N k` leaves a table of the same
form. -/
theorem filled_step (N k : Nat) (hk : 1 ≤ k) (hkN : k < N) (x : Int) :
    ∃ k', k ≤ k' ∧ k' < N ∧ ((filled N k).cached_fibCpp x).2 = filled N k' := by
  by_cases h0 : x < 0
  · exact ⟨k, le_refl k, hkN, by rw [Fib.cached_fibCpp_neg _ _ h0]⟩
  · by_cases h : toInt32 (filled N k).cache.length ≤ x
    · exact ⟨k, le_refl k, hkN, by rw [Fib.cached_fibCpp_range _ _ (by omega) h]⟩
    · rw [filled_length] at h
      have hle := toInt32_le N
      obtain ⟨m, rfl⟩ : ∃ m : Nat, x = (m : Int) := ⟨x.toNat, by omega⟩
      refine ⟨max k m, le_max_left _ _, ?_, ?_⟩
      · apply max_lt hkN
        omega
      · rw [filled_call N m k hk hkN (by omega)]

/-- The tables reachable from `Fib(N)` are exactly of the form `filled N k`
with `1 ≤ k < N`. -/
theorem reachable_filled (N : Nat) (hN : 2 ≤ N) (f : Fib) (h : Reachable N f) :
    ∃ k, 1 ≤ k ∧ k < N ∧ f = filled N k := by
  induction h with
  | init f hf =>
    rw [Fib.new_eq N hN] at hf
    exact ⟨1, le_refl 1, by omega, (Option.some.inj hf).symm⟩
  | step f x _ ih =>
    obtain ⟨k, hk, hkN, rfl⟩ := ih
    obtain ⟨k', hkk, hk', e⟩ := filled_step N k hk hkN x
    exact ⟨k', by omega, hk', e⟩

/-- A call below the capacity bound on a reachable table, in closed form. -/
theorem reachable_call (N : Nat) (hN : 2 ≤ N) (f : Fib) (h : Reachable N f) (x : Int)
    (h0 : 0 ≤ x) (hx : x < toInt32 N) :
    ∃ k, 1 ≤ k ∧ k < N ∧ f = filled N k ∧
      f.cached_fibCpp x = (.value (.num (F x.toNat)), filled N (max k x.toNat)) := by
  obtain ⟨k, hk, hkN, rfl⟩ := reachable_filled N hN f h
  obtain ⟨m, rfl⟩ : ∃ m : Nat, x = (m : Int) := ⟨x.toNat, by omega⟩
  exact ⟨k, hk, hkN, rfl, by rw [filled_call N m k hk hkN hx, Int.toNat_ofNat]⟩

/-! ## The loop of `iter_fibCpp` -/

theorem iterLoop_done (x : Int) (s : IterState) (h : ¬ s.i < x) : iterLoop x s = s := by
  rw [iterLoop]
  simp [h]

theorem iterLoop_step (x : Int) (s : IterState) (h : s.i < x) :
    iterLoop x s =
      iterLoop x ⟨s.i + 1, s.second, s.first.add s.second, s.first.add s.second, s.runs + 1⟩ := by
  rw [iterLoop]
  simp [h]

/-- Entered with `first = F i` and `second = F (i+1)`, the loop runs its body
`x - i` times and leaves `first = F x` and `second = F (x+1)`. -/
theorem iterLoop_spec (x : Int) (d : Nat) : ∀ s : IterState, (x - s.i).toNat = d →
    0 ≤ s.i → s.i ≤ x → s.first = .num (F s.i.toNat) → s.second = .num (F (s.i.toNat + 1)) →
    (iterLoop x s).i = x ∧ (iterLoop x s).first = .num (F x.toNat) ∧
      (iterLoop x s).second = .num (F (x.toNat + 1)) ∧
      ((iterLoop x s).runs : Int) = s.runs + (x - s.i) := by
  induction d with
  | zero =>
    intro s hd h0 hle hf hs
    have hi : s.i = x := by omega
    rw [iterLoop_done x s (by omega)]
    refine ⟨hi, ?_, ?_, by omega⟩
    · rw [hf, hi]
    · rw [hs, hi]
  | succ d ih =>
    intro s hd h0 hle hf hs
    have hlt : s.i < x := by omega
    have hnat : (s.i + 1).toNat = s.i.toNat + 1 := by omega
    rw [iterLoop_step x s hlt]
    obtain ⟨r1, r2, r3, r4⟩ :=
      ih ⟨s.i + 1, s.second, s.first.add s.second, s.first.add s.second, s.runs + 1⟩
        (by simp only; omega) (by simp only; omega) (by simp only; omega)
        (by simp only; rw [hs, hnat])
        (by simp only; rw [hf, hs, hnat, F_add_two]; simp [Dbl.add, add_comm])
    refine ⟨r1, r2, r3, ?_⟩
    rw [r4]
    push_cast
    ring

/-! ## The recursion of `fibCpp` -/

/-- With fuel above `n`, `fibCpp` returns `F n` at `n`. -/
theorem fibCpp_nat (n : Nat) : ∀ fuel : Nat, n < fuel → fibCpp fuel (n : Int) = some (F n : Int) := by
  induction n using Nat.strong_induction_on with
  | _ n ih =>
    intro fuel hfuel
    obtain ⟨g, rfl⟩ : ∃ g, fuel = g + 1 := ⟨fuel - 1, by omega⟩
    rcases n with _ | _ | j
    · simp [fibCpp, F]
    · simp [fibCpp, F]
    · have c1 : (((j + 2 : Nat) : Int) - 1) = ((j + 1 : Nat) : Int) := by omega
      have c2 : (((j + 2 : Nat) : Int) - 2) = ((j : Nat) : Int) := by omega
      have n0 : ¬ ((j + 2 : Nat) : Int) = 0 := by omega
      have n1 : ¬ ((j + 2 : Nat) : Int) = 1 := by omega
      unfold fibCpp
      rw [if_neg n0, if_neg n1, c1, c2, ih (j + 1) (by omega) g (by omega),
        ih j (by omega) g (by omega)]
      simp [F_add_two]

/-- For `x ≥ 0`, `iter_fibCpp` returns `F x`. -/
theorem iter_fibCpp_nonneg (x : Int) (h0 : 0 ≤ x) : iter_fibCpp x = Dbl.num (F x.toNat) := by
  unfold iter_fibCpp
  rw [if_neg (by omega)]
  by_cases h2 : x < 2
  · rw [if_pos h2]
    obtain rfl | rfl : x = 0 ∨ x = 1 := by omega
    · simp [Dbl.ofInt, F]
    · simp [Dbl.ofInt, F]
  · rw [if_neg h2]
    exact (iterLoop_spec x (x - iterInit.i).toNat iterInit rfl (by simp [iterInit])
      (by simpa [iterInit] using h0) (by simp [iterInit, F]) (by simp [iterInit, F])).2.1

theorem ofInt_natCast (n : Nat) : Dbl.ofInt (n : Int) = Dbl.num (n : ℚ) := by
  simp [Dbl.ofInt]

theorem filled_read_known (N k : Nat) (i : Int) (h0 : 0 ≤ i) (hk : i.toNat ≤ k) (hkN : k < N) :
    (filled N k).read i = some (Dbl.num (F i.toNat)) := by
  rw [Fib.read_eq _ _ h0, filled_getElem? N k _ (by omega), if_pos hk]

/-- Three variants at one argument `x` in the range of a reachable cache of
capacity 2000. -/
theorem agree_at (g : Fib) (hr : Reachable 2000 g) (x : Int) (h0 : 0 ≤ x) (hx : x < 2000) :
    (∀ fuel : Nat, x.toNat < fuel → fibCpp fuel x = some (F x.toNat : Int)) ∧
      iter_fibCpp x = Dbl.ofInt (F x.toNat : Int) ∧
      (cached_fibCpp g x).1 = Outcome.value (Dbl.ofInt (F x.toNat : Int)) := by
  refine ⟨?_, ?_, ?_⟩
  · obtain ⟨m, rfl⟩ : ∃ m : Nat, x = (m : Int) := ⟨x.toNat, by omega⟩
    intro fuel hfuel
    rw [Int.toNat_ofNat] at hfuel ⊢
    exact fibCpp_nat m fuel hfuel
  · rw [iter_fibCpp_nonneg x h0, ofInt_natCast]
  · obtain ⟨k, -, -, -, e⟩ := reachable_call 2000 (by decide) g hr x h0
      (by rw [toInt32_of_lt 2000 (by decide)]; exact_mod_cast hx)
    unfold cached_fibCpp
    rw [e, ofInt_natCast]

/-! ## Claims -/

/-- C2: on every cache of capacity `N` with `2 ≤ N < 2^31` (whatever its
contents) and for every `x ≥ 0`, `Fib::cached_fibCpp(x)` throws the range
error if and only if `x ≥ N`; when it throws, the table is unchanged and
nothing at all was read or written before; when `x < N` it returns a number
and every nested call has an argument in `[0, N)`, hence does not throw.  In
particular `N - 1` succeeds and `N` fails. -/
theorem C2_range_error_iff (f : Fib) (x : Int) (hN : 2 ≤ f.cache.length)
    (hint : f.cache.length < 2 ^ 31) (h0 : 0 ≤ x) :
    ((f.cached_fibCpp x).1 = Outcome.range_error ↔ (f.cache.length : Int) ≤ x) ∧
      ((f.cached_fibCpp x).1 = Outcome.range_error →
        (f.cached_fibCpp x).2 = f ∧ f.cached_fibCppLog x = (Outcome.range_error, f, [])) ∧
      (x < (f.cache.length : Int) →
        (∃ v : ℚ, (f.cached_fibCpp x).1 = Outcome.value (Dbl.num v)) ∧
        (f.cached_fibCppLog x).1 = (f.cached_fibCpp x).1 ∧
        ∀ y : Int, Event.call y ∈ (f.cached_fibCppLog x).2.2 →
          0 ≤ y ∧ y < (f.cache.length : Int)) ∧
      (∃ v : ℚ, (f.cached_fibCpp ((f.cache.length : Int) - 1)).1 = Outcome.value (Dbl.num v)) ∧
      (f.cached_fibCpp (f.cache.length : Int)).1 = Outcome.range_error := by
  have hcast := toInt32_of_lt _ hint
  have hsucc : ∀ z : Int, 0 ≤ z → z < (f.cache.length : Int) →
      ∃ v : ℚ, (f.cached_fibCpp z).1 = Outcome.value (Dbl.num v) := by
    intro z hz0 hz
    obtain ⟨v, f', e, -⟩ := Fib.cached_fibCpp_ok z.toNat z f rfl hz0 (by omega)
    exact ⟨v, by rw [e]⟩
  have hfail : ∀ z : Int, (f.cache.length : Int) ≤ z →
      f.cached_fibCpp z = (Outcome.range_error, f) := by
    intro z hz
    exact Fib.cached_fibCpp_range f z (by omega) (by omega)
  refine ⟨⟨?_, ?_⟩, ?_, ?_, hsucc _ (by omega) (by omega), by rw [hfail _ (le_refl _)]⟩
  · intro he
    by_contra hlt
    obtain ⟨v, e⟩ := hsucc x h0 (by omega)
    rw [e] at he
    cases he
  · intro hge
    rw [hfail x hge]
  · intro he
    have hge : (f.cache.length : Int) ≤ x := by
      by_contra hlt
      obtain ⟨v, e⟩ := hsucc x h0 (by omega)
      rw [e] at he
      cases he
    exact ⟨by rw [hfail x hge], Fib.cached_fibCppLog_range f x h0 (by omega)⟩
  · intro hlt
    obtain ⟨l, e, hcalls⟩ := Fib.cached_fibCppLog_ok x.toNat x f rfl h0 (by omega)
    refine ⟨hsucc x h0 hlt, by rw [e], ?_⟩
    intro y hy
    rw [e] at hy
    have := hcalls y hy
    omega

/-- C2 at capacity 5, on the freshly constructed cache: index 5 fails (and, by
the second component, index 4 succeeds). -/
theorem C2_range_error_iff_witness :
    (2 ≤ (filled 5 1).cache.length ∧ (filled 5 1).cache.length < 2 ^ 31 ∧ (0 : Int) ≤ 5) ∧
      (((filled 5 1).cached_fibCpp 5).1 = Outcome.range_error ∧
        ∃ v : ℚ, ((filled 5 1).cached_fibCpp (((filled 5 1).cache.length : Int) - 1)).1
          = Outcome.value (Dbl.num v)) :=
  have h := C2_range_error_iff (filled 5 1) 5 (by decide) (by decide) (by decide)
  ⟨⟨by decide, by decide, by decide⟩, h.1.2 (by decide), h.2.2.2.1⟩

/-- C5: for every `x < 0`, `iter_fibCpp(x)` returns NaN, and
`Fib::cached_fibCpp(x)`, on a cache of any capacity and any contents, returns
NaN (it does not throw), leaves the table as it was and reads or writes no
slot. -/
theorem C5_negative_is_nan (x : Int) (hx : x < 0) :
    iter_fibCpp x = Dbl.nan ∧
      ∀ f : Fib, f.cached_fibCpp x = (Outcome.value Dbl.nan, f) ∧
        f.cached_fibCppLog x = (Outcome.value Dbl.nan, f, []) := by
  refine ⟨?_, fun f => ⟨Fib.cached_fibCpp_neg f x hx, Fib.cached_fibCppLog_neg f x hx⟩⟩
  unfold iter_fibCpp
  rw [if_pos hx]

/-- C5 at `x = -1`, for the iterative variant and for the empty cache, where
the capacity check would fail as well. -/
theorem C5_negative_is_nan_witness :
    (-1 : Int) < 0 ∧ iter_fibCpp (-1) = Dbl.nan ∧
      (Fib.mk []).cached_fibCpp (-1) = (Outcome.value Dbl.nan, Fib.mk []) :=
  have h := C5_negative_is_nan (-1) (by decide)
  ⟨by decide, h.1, (h.2 (Fib.mk [])).1⟩

/-- C6: for every `x` in `[0, 30]`, `fibCpp(x)`, `iter_fibCpp(x)` and the
exported `cached_fibCpp(x)`, on the capacity-2000 cache in any state reachable
from its construction, return the same number; all three return 0, 1, 1, 55
and 6765 at 0, 1, 2, 10 and 20. -/
theorem C6_three_variants_agree (g : Fib) (x : Int) (hr : Reachable 2000 g) (h0 : 0 ≤ x)
    (h30 : x ≤ 30) :
    (∃ n : Int, (∀ fuel : Nat, x.toNat < fuel → fibCpp fuel x = some n) ∧
        iter_fibCpp x = Dbl.ofInt n ∧ (cached_fibCpp g x).1 = Outcome.value (Dbl.ofInt n)) ∧
      ∀ p ∈ [((0 : Int), (0 : Int)), (1, 1), (2, 1), (10, 55), (20, 6765)],
        (∀ fuel : Nat, p.1.toNat < fuel → fibCpp fuel p.1 = some p.2) ∧
          iter_fibCpp p.1 = Dbl.ofInt p.2 ∧
          (cached_fibCpp g p.1).1 = Outcome.value (Dbl.ofInt p.2) := by
  refine ⟨⟨_, agree_at g hr x h0 (by omega)⟩, ?_⟩
  have v0 : ((F (0 : Int).toNat : Nat) : Int) = 0 := by decide
  have v1 : ((F (1 : Int).toNat : Nat) : Int) = 1 := by decide
  have v2 : ((F (2 : Int).toNat : Nat) : Int) = 1 := by decide
  have v10 : ((F (10 : Int).toNat : Nat) : Int) = 55 := by decide
  have v20 : ((F (20 : Int).toNat : Nat) : Int) = 6765 := by decide
  intro p hp
  simp only [List.mem_cons, List.mem_singleton, List.not_mem_nil, or_false] at hp
  rcases hp with rfl | rfl | rfl | rfl | rfl
  · have h := agree_at g hr 0 (by decide) (by decide)
    rw [v0] at h
    exact h
  · have h := agree_at g hr 1 (by decide) (by decide)
    rw [v1] at h
    exact h
  · have h := agree_at g hr 2 (by decide) (by decide)
    rw [v2] at h
    exact h
  · have h := agree_at g hr 10 (by decide) (by decide)
    rw [v10] at h
    exact h
  · have h := agree_at g hr 20 (by decide) (by decide)
    rw [v20] at h
    exact h

/-- C6 on the global cache after the calls with arguments 25 and 7, at `x = 20`. -/
theorem C6_three_variants_agree_witness :
    (Reachable 2000 ((cached_fibCpp (cached_fibCpp (filled 2000 1) 25).2 7).2) ∧
      (0 : Int) ≤ 20 ∧ (20 : Int) ≤ 30) ∧
      (fibCpp 21 20 = some 6765 ∧ iter_fibCpp 20 = Dbl.ofInt 6765 ∧
        (cached_fibCpp ((cached_fibCpp (cached_fibCpp (filled 2000 1) 25).2 7).2) 20).1
          = Outcome.value (Dbl.ofInt 6765)) :=
  have hr : Reachable 2000 ((cached_fibCpp (cached_fibCpp (filled 2000 1) 25).2 7).2) :=
    Reachable.step _ 7 (Reachable.step _ 25 (Reachable.init _ (Fib.new_eq 2000 (by decide))))
  have h := (C6_three_variants_agree _ 20 hr (by decide) (by decide)).2 (20, 6765) (by simp)
  ⟨⟨hr, by decide, by decide⟩, h.1 21 (by decide), h.2.1, h.2.2⟩

/-- C9: whatever the cache and the argument `x`, a second call of
`Fib::cached_fibCpp(x)` right after the first ends as the first did (the same
returned value), leaves the table exactly as the first call left it, and
performs no addition, no nested call and no store. -/
theorem C9_idempotent (f : Fib) (x : Int) :
    ((f.cached_fibCpp x).2.cached_fibCpp x).1 = (f.cached_fibCpp x).1 ∧
      ((f.cached_fibCpp x).2.cached_fibCpp x).2 = (f.cached_fibCpp x).2 ∧
      ((f.cached_fibCpp x).2.cached_fibCppLog x).1 = (f.cached_fibCpp x).1 ∧
      ((f.cached_fibCpp x).2.cached_fibCppLog x).2.1 = (f.cached_fibCpp x).2 ∧
      ∀ e ∈ ((f.cached_fibCpp x).2.cached_fibCppLog x).2.2,
        (∀ a b : Dbl, e ≠ Event.add a b) ∧ (∀ y : Int, e ≠ Event.call y) ∧
          (∀ (i : Int) (v : Dbl), e ≠ Event.write i v) := by
  by_cases h0 : x < 0
  · rw [Fib.cached_fibCpp_neg f x h0]
    simp [Fib.cached_fibCpp_neg f x h0, Fib.cached_fibCppLog_neg f x h0]
  · by_cases h : toInt32 f.cache.length ≤ x
    · rw [Fib.cached_fibCpp_range f x (by omega) h]
      simp [Fib.cached_fibCpp_range f x (by omega) h, Fib.cached_fibCppLog_range f x (by omega) h]
    · by_cases h2 : x < 2
      · rw [Fib.cached_fibCpp_small f x (by omega) (by omega) h2]
        simp [Fib.cached_fibCpp_small f x (by omega) (by omega) h2,
          Fib.cached_fibCppLog_small f x (by omega) (by omega) h2]
      · obtain ⟨v, f', e, len, hread, -, -⟩ :=
          Fib.cached_fibCpp_ok x.toNat x f rfl (by omega) (by omega)
        rw [e]
        have hlt : x < toInt32 f'.cache.length := by rw [len]; omega
        simp [Fib.cached_fibCpp_hit f' x v (by omega) hlt (hread (by omega)),
          Fib.cached_fibCppLog_hit f' x v (by omega) hlt (hread (by omega))]

/-- C10: whatever the cache and the argument, after `Fib::cached_fibCpp(x)`
has returned or thrown the table has the length it had, every slot that was
known before holds the value it held, and a slot that differs was unknown
before. -/
theorem C10_never_invalidated (f : Fib) (x : Int) :
    (f.cached_fibCpp x).2.cache.length = f.cache.length ∧
      (∀ (i : Nat) (d : Dbl), f.cache[i]? = some d → d.isnan = false →
        (f.cached_fibCpp x).2.cache[i]? = some d) ∧
      ∀ i : Nat, (f.cached_fibCpp x).2.cache[i]? ≠ f.cache[i]? →
        f.cache[i]? = some Dbl.nan := by
  have key : (f.cached_fibCpp x).2.cache.length = f.cache.length ∧
      ∀ (i : Nat) (u : ℚ), f.cache[i]? = some (Dbl.num u) →
        (f.cached_fibCpp x).2.cache[i]? = some (Dbl.num u) := by
    by_cases h0 : x < 0
    · rw [Fib.cached_fibCpp_neg f x h0]
      exact ⟨rfl, fun _ _ h => h⟩
    · by_cases h : toInt32 f.cache.length ≤ x
      · rw [Fib.cached_fibCpp_range f x (by omega) h]
        exact ⟨rfl, fun _ _ h => h⟩
      · obtain ⟨v, f', e, len, -, keep, -⟩ :=
          Fib.cached_fibCpp_ok x.toNat x f rfl (by omega) (by omega)
        rw [e]
        exact ⟨len, keep⟩
  refine ⟨key.1, ?_, ?_⟩
  · intro i d hd hnan
    cases d with
    | nan => simp [Dbl.isnan] at hnan
    | num u => exact key.2 i u hd
  · intro i hne
    cases hc : f.cache[i]? with
    | none =>
      exfalso
      apply hne
      rw [hc, List.getElem?_eq_none]
      rw [key.1]
      exact List.getElem?_eq_none_iff.1 hc
    | some d =>
      cases d with
      | nan => rfl
      | num u =>
        exfalso
        apply hne
        rw [hc]
        exact key.2 i u hc

/-! ## Helper lemmas for the constructor, `fibCpp` on negative input and 32-bit `fibCpp` -/

theorem F_eq_fib (n : Nat) : F n = Nat.fib n := by
  induction n using Nat.strong_induction_on with
  | _ n ih =>
    rcases n with _ | _ | j
    · rfl
    · rfl
    · rw [F_add_two, Nat.fib_add_two, ih (j + 1) (by omega), ih j (by omega), Nat.add_comm]

theorem F_mono (m n : Nat) (h : m ≤ n) : F m ≤ F n := by
  rw [F_eq_fib, F_eq_fib]
  exact Nat.fib_mono h

theorem F_46 : F 46 = 1836311903 := by
  rw [F_eq_fib]
  norm_num

theorem F_45 : F 45 = 1134903170 := by
  rw [F_eq_fib]
  norm_num

theorem F_47 : F 47 = 2971215073 := by
  rw [F_eq_fib]
  norm_num

theorem wrap32_of_range (z : Int) (h0 : 0 ≤ z) (h : z < 2 ^ 31) : wrap32 z = z := by
  unfold wrap32
  omega

/-- With 32-bit additions and fuel above `n ≤ 46`, `fibCpp` returns `F n` and
no addition overflows. -/
theorem fibCpp32_small (n : Nat) : n ≤ 46 → ∀ fuel : Nat, n < fuel →
    fibCpp32 fuel (n : Int) = some ((F n : Int), false) := by
  induction n using Nat.strong_induction_on with
  | _ n ih =>
    intro h46 fuel hfuel
    obtain ⟨g, rfl⟩ : ∃ g, fuel = g + 1 := ⟨fuel - 1, by omega⟩
    rcases n with _ | _ | j
    · simp [fibCpp32, F]
    · simp [fibCpp32, F]
    · have c1 : (((j + 2 : Nat) : Int) - 1) = ((j + 1 : Nat) : Int) := by omega
      have c2 : (((j + 2 : Nat) : Int) - 2) = ((j : Nat) : Int) := by omega
      have n0 : ¬ ((j + 2 : Nat) : Int) = 0 := by omega
      have n1 : ¬ ((j + 2 : Nat) : Int) = 1 := by omega
      have hb : F (j + 2) ≤ 1836311903 := by
        rw [← F_46]
        exact F_mono _ _ h46
      have hsum : wrap32 ((F (j + 1) : Int) + (F j : Int)) = (F (j + 2) : Int) := by
        rw [F_add_two] at hb ⊢
        rw [wrap32_of_range _ (by omega) (by omega)]
        push_cast
        rfl
      unfold fibCpp32
      rw [if_neg n0, if_neg n1, c1, c2, ih (j + 1) (by omega) (by omega) g (by omega),
        ih j (by omega) (by omega) g (by omega)]
      simp only [hsum]
      rw [F_add_two]
      simp

/-- With 32-bit additions the evaluation of `fibCpp(47)` overflows in its last
addition and returns the wrapped sum. -/
theorem fibCpp32_47 (fuel : Nat) (h : 47 < fuel) :
    fibCpp32 fuel 47 = some (-1323752223, true) := by
  obtain ⟨g, rfl⟩ : ∃ g, fuel = g + 1 := ⟨fuel - 1, by omega⟩
  have e1 := fibCpp32_small 46 (by decide) g (by omega)
  have e2 := fibCpp32_small 45 (by decide) g (by omega)
  rw [F_46] at e1
  rw [F_45] at e2
  have c1 : ((47 : Int) - 1) = ((46 : Nat) : Int) := by decide
  have c2 : ((47 : Int) - 2) = ((45 : Nat) : Int) := by decide
  unfold fibCpp32
  rw [if_neg (by decide), if_neg (by decide), c1, c2, e1, e2]
  decide

/-- From 47 on, some addition of the 32-bit evaluation overflows. -/
theorem fibCpp32_large (n : Nat) : 47 ≤ n → ∀ fuel : Nat, n < fuel →
    ∃ v : Int, fibCpp32 fuel (n : Int) = some (v, true) := by
  induction n using Nat.strong_induction_on with
  | _ n ih =>
    intro h47 fuel hfuel
    by_cases e47 : n = 47
    · subst e47
      exact ⟨_, fibCpp32_47 fuel hfuel⟩
    · obtain ⟨g, rfl⟩ : ∃ g, fuel = g + 1 := ⟨fuel - 1, by omega⟩
      obtain ⟨j, rfl⟩ : ∃ j, n = j + 2 := ⟨n - 2, by omega⟩
      have c1 : (((j + 2 : Nat) : Int) - 1) = ((j + 1 : Nat) : Int) := by omega
      have c2 : (((j + 2 : Nat) : Int) - 2) = ((j : Nat) : Int) := by omega
      have n0 : ¬ ((j + 2 : Nat) : Int) = 0 := by omega
      have n1 : ¬ ((j + 2 : Nat) : Int) = 1 := by omega
      obtain ⟨a, ea⟩ := ih (j + 1) (by omega) (by omega) g (by omega)
      have hb : ∃ b ob, fibCpp32 g (j : Int) = some (b, ob) := by
        by_cases hj : 47 ≤ j
        · obtain ⟨b, eb⟩ := ih j (by omega) hj g (by omega)
          exact ⟨b, true, eb⟩
        · exact ⟨_, false, fibCpp32_small j (by omega) g (by omega)⟩
      obtain ⟨b, ob, eb⟩ := hb
      unfold fibCpp32
      rw [if_neg n0, if_neg n1, c1, c2, ea, eb]
      exact ⟨wrap32 (a + b), by simp⟩

theorem fibCpp_neg (fuel : Nat) : ∀ x : Int, x < 0 → fibCpp fuel x = none := by
  induction fuel with
  | zero =>
    intro x _
    rfl
  | succ g ih =>
    intro x hx
    unfold fibCpp
    rw [if_neg (by omega), if_neg (by omega), ih (x - 1) (by omega)]

theorem fibCppArgs_neg (fuel : Nat) : ∀ x : Int, x < 0 → ∀ y ∈ fibCppArgs fuel x, y < 0 := by
  induction fuel with
  | zero =>
    intro x _ y hy
    simp [fibCppArgs] at hy
  | succ g ih =>
    intro x hx y hy
    unfold fibCppArgs at hy
    rw [if_neg (by omega), if_neg (by omega)] at hy
    simp only [List.mem_cons, List.mem_append] at hy
    rcases hy with rfl | hy | hy
    · exact hx
    · exact ih (x - 1) (by omega) y hy
    · exact ih (x - 2) (by omega) y hy

theorem new_isSome_iff (n : Nat) : (Fib.new n).isSome = true ↔ 2 ≤ n := by
  constructor
  · intro h
    by_contra hn
    obtain rfl | rfl : n = 0 ∨ n = 1 := by omega
    · simp [Fib.new, Fib.write] at h
    · simp [Fib.new, Fib.write] at h
  · intro h
    rw [Fib.new_eq n h]
    rfl

/-! ## The instrumented copies on tables with arbitrary contents -/

namespace Fib

theorem cached_fibCppDepth_neg (f : Fib) (x : Int) (h : x < 0) :
    f.cached_fibCppDepth x = (.value .nan, f, 0) := by
  rw [cached_fibCppDepth]
  simp [h]

theorem cached_fibCppDepth_range (f : Fib) (x : Int) (h0 : 0 ≤ x)
    (h : toInt32 f.cache.length ≤ x) : f.cached_fibCppDepth x = (.range_error, f, 0) := by
  rw [cached_fibCppDepth]
  simp [not_lt.2 h0, h]

theorem cached_fibCppDepth_small (f : Fib) (x : Int) (h0 : 0 ≤ x)
    (h : x < toInt32 f.cache.length) (h2 : x < 2) :
    f.cached_fibCppDepth x = (.value (Dbl.ofInt x), f, 0) := by
  rw [cached_fibCppDepth]
  simp [not_lt.2 h0, h, h2]

theorem cached_fibCppDepth_hit (f : Fib) (x : Int) (u : ℚ) (h2 : 2 ≤ x)
    (h : x < toInt32 f.cache.length) (hr : f.read x = some (.num u)) :
    f.cached_fibCppDepth x = (.value (.num u), f, 0) := by
  rw [cached_fibCppDepth]
  have h0 : ¬ x < 0 := by omega
  have h2 : ¬ x < 2 := by omega
  simp [h0, h, h2, hr, Dbl.isnan]

theorem cached_fibCppDepth_miss (f f1 f2 f3 : Fib) (x : Int) (a b r : Dbl) (d1 d2 : Nat)
    (h2 : 2 ≤ x) (h : x < toInt32 f.cache.length) (hr : f.read x = some .nan)
    (e1 : f.cached_fibCppDepth (x - 1) = (.value a, f1, d1))
    (e2 : f1.cached_fibCppDepth (x - 2) = (.value b, f2, d2))
    (hw : f2.write x (a.add b) = some f3) (hr3 : f3.read x = some r) :
    f.cached_fibCppDepth x = (.value r, f3, max (d1 + 1) (d2 + 1)) := by
  rw [cached_fibCppDepth]
  have h0 : ¬ x < 0 := by omega
  have h2 : ¬ x < 2 := by omega
  simp [h0, h, h2, hr, Dbl.isnan, e1, e2, hw, hr3]

/-- Below the capacity bound the depth-counting copy returns what
`cached_fibCpp` returns, and the nesting depth is at most `x - 1`. -/
theorem cached_fibCppDepth_ok (n : Nat) : ∀ (x : Int) (f : Fib), x.toNat = n → 0 ≤ x →
    x < toInt32 f.cache.length →
    ∃ d : Nat, f.cached_fibCppDepth x = ((f.cached_fibCpp x).1, (f.cached_fibCpp x).2, d) ∧
      d ≤ (x - 1).toNat := by
  induction n using Nat.strong_induction_on with
  | _ n ih =>
    intro x f hn h0 hlt
    have hle := toInt32_le f.cache.length
    by_cases h2 : x < 2
    · refine ⟨0, ?_, Nat.zero_le _⟩
      rw [cached_fibCppDepth_small f x h0 hlt h2, cached_fibCpp_small f x h0 hlt h2]
    · have h2 : 2 ≤ x := by omega
      have hidx : x.toNat < f.cache.length := by omega
      have hread : f.read x = some (f.cache[x.toNat]) := by
        rw [read_eq f x h0, List.getElem?_eq_getElem hidx]
      cases hc : f.cache[x.toNat] with
      | num u =>
        rw [hc] at hread
        refine ⟨0, ?_, Nat.zero_le _⟩
        rw [cached_fibCppDepth_hit f x u h2 hlt hread, cached_fibCpp_hit f x u h2 hlt hread]
      | nan =>
        rw [hc] at hread
        obtain ⟨a, f1, e1, len1, -, -, -⟩ :=
          cached_fibCpp_ok (x - 1).toNat (x - 1) f rfl (by omega) (by omega)
        obtain ⟨b, f2, e2, len2, -, -, -⟩ :=
          cached_fibCpp_ok (x - 2).toNat (x - 2) f1 rfl (by omega) (by rw [len1]; omega)
        obtain ⟨d1, g1, c1⟩ := ih (x - 1).toNat (by omega) (x - 1) f rfl (by omega) (by omega)
        obtain ⟨d2, g2, c2⟩ :=
          ih (x - 2).toNat (by omega) (x - 2) f1 rfl (by omega) (by rw [len1]; omega)
        rw [e1] at g1
        rw [e2] at g2
        have hidx2 : x.toNat < f2.cache.length := by rw [len2, len1]; exact hidx
        have hw := write_eq f2 x ((Dbl.num a).add (Dbl.num b)) h0 hidx2
        have hr3 : (Fib.mk (f2.cache.set x.toNat ((Dbl.num a).add (Dbl.num b)))).read x
            = some (.num (a + b)) := by
          rw [read_eq _ x h0]
          simp [hidx2, Dbl.add]
        refine ⟨max (d1 + 1) (d2 + 1), ?_, ?_⟩
        · rw [cached_fibCppDepth_miss f f1 f2 _ x _ _ _ d1 d2 h2 hlt hread g1 g2 hw hr3,
            cached_fibCpp_miss f f1 f2 _ x _ _ _ h2 hlt hread e1 e2 hw hr3]
        · apply max_le
          · omega
          · omega

/-- Below the capacity bound every slot read or stored to by the instrumented
run has its index in `[2, capacity)`. -/
theorem cached_fibCppLog_bounds (n : Nat) : ∀ (x : Int) (f : Fib), x.toNat = n → 0 ≤ x →
    x < toInt32 f.cache.length →
    (∀ i : Int, Event.read i ∈ (f.cached_fibCppLog x).2.2 →
        2 ≤ i ∧ i < (f.cache.length : Int)) ∧
      ∀ (i : Int) (v : Dbl), Event.write i v ∈ (f.cached_fibCppLog x).2.2 →
        2 ≤ i ∧ i < (f.cache.length : Int) := by
  induction n using Nat.strong_induction_on with
  | _ n ih =>
    intro x f hn h0 hlt
    have hle := toInt32_le f.cache.length
    by_cases h2 : x < 2
    · rw [cached_fibCppLog_small f x h0 hlt h2]
      simp
    · have h2 : 2 ≤ x := by omega
      have hidx : x.toNat < f.cache.length := by omega
      have hread : f.read x = some (f.cache[x.toNat]) := by
        rw [read_eq f x h0, List.getElem?_eq_getElem hidx]
      cases hc : f.cache[x.toNat] with
      | num u =>
        rw [hc] at hread
        rw [cached_fibCppLog_hit f x u h2 hlt hread]
        constructor
        · intro i hi
          simp only [List.mem_cons, Event.read.injEq, List.not_mem_nil, or_false, or_self] at hi
          omega
        · intro i v hi
          simp at hi
      | nan =>
        rw [hc] at hread
        obtain ⟨a, f1, e1, len1, -, -, -⟩ :=
          cached_fibCpp_ok (x - 1).toNat (x - 1) f rfl (by omega) (by omega)
        obtain ⟨b, f2, e2, len2, -, -, -⟩ :=
          cached_fibCpp_ok (x - 2).toNat (x - 2) f1 rfl (by omega) (by rw [len1]; omega)
        obtain ⟨l1, g1, -⟩ :=
          cached_fibCppLog_ok (x - 1).toNat (x - 1) f rfl (by omega) (by omega)
        obtain ⟨l2, g2, -⟩ :=
          cached_fibCppLog_ok (x - 2).toNat (x - 2) f1 rfl (by omega) (by rw [len1]; omega)
        obtain ⟨r1, w1⟩ := ih (x - 1).toNat (by omega) (x - 1) f rfl (by omega) (by omega)
        obtain ⟨r2, w2⟩ :=
          ih (x - 2).toNat (by omega) (x - 2) f1 rfl (by omega) (by rw [len1]; omega)
        rw [g1] at r1 w1
        rw [g2] at r2 w2
        rw [e1] at g1
        rw [e2] at g2
        rw [len1] at r2 w2
        have hidx2 : x.toNat < f2.cache.length := by rw [len2, len1]; exact hidx
        have hw := write_eq f2 x ((Dbl.num a).add (Dbl.num b)) h0 hidx2
        have hr3 : (Fib.mk (f2.cache.set x.toNat ((Dbl.num a).add (Dbl.num b)))).read x
            = some (.num (a + b)) := by
          rw [read_eq _ x h0]
          simp [hidx2, Dbl.add]
        rw [cached_fibCppLog_miss f f1 f2 _ x _ _ _ l1 l2 h2 hlt hread g1 g2 hw hr3]
        constructor
        · intro i hi
          simp only [List.mem_cons, List.mem_append, List.mem_singleton, Event.read.injEq,
            reduceCtorEq, false_or, or_false, List.not_mem_nil] at hi
          rcases hi with ((hi | hi) | hi) | hi
          · omega
          · exact r1 i hi
          · exact r2 i hi
          · omega
        · intro i v hi
          simp only [List.mem_cons, List.mem_append, List.mem_singleton, Event.write.injEq,
            reduceCtorEq, false_or, or_false, List.not_mem_nil] at hi
          rcases hi with (hi | hi) | hi
          · exact w1 i v hi
          · exact w2 i v hi
          · omega

end Fib

/-! ## Lookup-or-fill on tables with arbitrary contents -/

namespace Fib

end Fib

/-! ## The two orders of evaluation -/

namespace Fib

theorem cached_fibCppRev_neg (f : Fib) (x : Int) (h : x < 0) :
    f.cached_fibCppRev x = (.value .nan, f) := by
  rw [cached_fibCppRev]
  simp [h]

theorem cached_fibCppRev_range (f : Fib) (x : Int) (h0 : 0 ≤ x)
    (h : toInt32 f.cache.length ≤ x) : f.cached_fibCppRev x = (.range_error, f) := by
  rw [cached_fibCppRev]
  simp [not_lt.2 h0, h]

theorem cached_fibCppRev_small (f : Fib) (x : Int) (h0 : 0 ≤ x)
    (h : x < toInt32 f.cache.length) (h2 : x < 2) :
    f.cached_fibCppRev x = (.value (Dbl.ofInt x), f) := by
  rw [cached_fibCppRev]
  simp [not_lt.2 h0, h, h2]

theorem cached_fibCppRev_hit (f : Fib) (x : Int) (u : ℚ) (h2 : 2 ≤ x)
    (h : x < toInt32 f.cache.length) (hr : f.read x = some (.num u)) :
    f.cached_fibCppRev x = (.value (.num u), f) := by
  rw [cached_fibCppRev]
  have h0 : ¬ x < 0 := by omega
  have h2 : ¬ x < 2 := by omega
  simp [h0, h, h2, hr, Dbl.isnan]

theorem cached_fibCppRev_miss (f f1 f2 f3 : Fib) (x : Int) (a b r : Dbl) (h2 : 2 ≤ x)
    (h : x < toInt32 f.cache.length) (hr : f.read x = some .nan)
    (e1 : f.cached_fibCppRev (x - 2) = (.value b, f1))
    (e2 : f1.cached_fibCppRev (x - 1) = (.value a, f2))
    (hw : f2.write x (a.add b) = some f3) (hr3 : f3.read x = some r) :
    f.cached_fibCppRev x = (.value r, f3) := by
  rw [cached_fibCppRev]
  have h0 : ¬ x < 0 := by omega
  have h2 : ¬ x < 2 := by omega
  simp [h0, h, h2, hr, Dbl.isnan, e1, e2, hw, hr3]

/-- Below the capacity bound, a call repeated on the table it left returns the
same and leaves the same. -/
theorem cached_fibCpp_again (f : Fib) (y : Int) (h0 : 0 ≤ y)
    (hlt : y < toInt32 f.cache.length) :
    (f.cached_fibCpp y).2.cached_fibCpp y = f.cached_fibCpp y := by
  by_cases h2 : y < 2
  · rw [cached_fibCpp_small f y h0 hlt h2]
    exact cached_fibCpp_small f y h0 hlt h2
  · obtain ⟨v, f', e, len, hread, -, -⟩ := cached_fibCpp_ok y.toNat y f rfl h0 hlt
    rw [e]
    exact cached_fibCpp_hit f' y v (by omega) (by rw [len]; exact hlt) (hread (by omega))

/-- The two operand calls commute: evaluated in either order from the table
`f`, they return the same two values and leave the same table. -/
theorem cached_fibCpp_swap (f : Fib) (x : Int) (h2 : 2 ≤ x) (hlt : x < toInt32 f.cache.length) :
    ∃ (a b : ℚ) (f1 f2 g1 : Fib),
      f.cached_fibCpp (x - 1) = (.value (.num a), f1) ∧
      f1.cached_fibCpp (x - 2) = (.value (.num b), f2) ∧
      f.cached_fibCpp (x - 2) = (.value (.num b), g1) ∧
      g1.cached_fibCpp (x - 1) = (.value (.num a), f2) ∧
      f2.cache.length = f.cache.length := by
  have hle := toInt32_le f.cache.length
  obtain ⟨b, g1, eg, leng, readg, keepg, aboveg⟩ :=
    cached_fibCpp_ok (x - 2).toNat (x - 2) f rfl (by omega) (by omega)
  have hg1 : x - 1 < toInt32 g1.cache.length := by rw [leng]; omega
  have again : g1.cached_fibCpp (x - 2) = (.value (.num b), g1) := by
    have h := cached_fibCpp_again f (x - 2) (by omega) (by omega)
    rw [eg] at h
    exact h
  by_cases h3 : x - 1 < 2
  · -- the left operand is the constant 1
    have e1 := cached_fibCpp_small f (x - 1) (by omega) (by omega) h3
    have e4 := cached_fibCpp_small g1 (x - 1) (by omega) hg1 h3
    exact ⟨((x - 1 : Int) : ℚ), b, f, g1, g1, e1, eg, eg, e4, leng⟩
  · have hidx : (x - 1).toNat < f.cache.length := by omega
    have hread : f.read (x - 1) = some (f.cache[(x - 1).toNat]) := by
      rw [read_eq f _ (by omega), List.getElem?_eq_getElem hidx]
    cases hc : f.cache[(x - 1).toNat] with
    | num u =>
      -- slot x - 1 is known: the left operand is a lookup in either order
      rw [hc] at hread
      have e1 := cached_fibCpp_hit f (x - 1) u (by omega) (by omega) hread
      have hread' : g1.read (x - 1) = some (.num u) := by
        rw [read_eq g1 _ (by omega)]
        apply keepg
        rw [List.getElem?_eq_getElem hidx, hc]
      have e4 := cached_fibCpp_hit g1 (x - 1) u (by omega) hg1 hread'
      exact ⟨u, b, f, g1, g1, e1, eg, eg, e4, leng⟩
    | nan =>
      -- slot x - 1 is unknown: its fill calls x - 2 first and then x - 3
      rw [hc] at hread
      obtain ⟨c, g2, e3, len3, -, keep3, -⟩ :=
        cached_fibCpp_ok (x - 1 - 2).toNat (x - 1 - 2) g1 rfl (by omega) (by rw [leng]; omega)
      have hidx2 : (x - 1).toNat < g2.cache.length := by rw [len3, leng]; exact hidx
      have hw := write_eq g2 (x - 1) ((Dbl.num b).add (Dbl.num c)) (by omega) hidx2
      have hr3 : (Fib.mk (g2.cache.set (x - 1).toNat ((Dbl.num b).add (Dbl.num c)))).read (x - 1)
          = some (.num (b + c)) := by
        rw [read_eq _ _ (by omega)]
        exact List.getElem?_set_self hidx2
      have ex : x - 1 - 1 = x - 2 := by omega
      have e1 := cached_fibCpp_miss f g1 g2 _ (x - 1) _ _ _ (by omega) (by omega) hread
        (by rw [ex]; exact eg) e3 hw hr3
      have hread' : g1.read (x - 1) = some .nan := by
        rw [read_eq g1 _ (by omega), aboveg _ (by omega), List.getElem?_eq_getElem hidx, hc]
      have e4 := cached_fibCpp_miss g1 g1 g2 _ (x - 1) _ _ _ (by omega) hg1 hread'
        (by rw [ex]; exact again) e3 hw hr3
      have len1 : (Fib.mk (g2.cache.set (x - 1).toNat ((Dbl.num b).add (Dbl.num c)))).cache.length
          = f.cache.length := by
        simp [len3, leng]
      have e2 : (Fib.mk (g2.cache.set (x - 1).toNat ((Dbl.num b).add (Dbl.num c)))).cached_fibCpp
          (x - 2) = (.value (.num b),
            Fib.mk (g2.cache.set (x - 1).toNat ((Dbl.num b).add (Dbl.num c)))) := by
        by_cases h4 : x - 2 < 2
        · have hs := cached_fibCpp_small f (x - 2) (by omega) (by omega) h4
          rw [eg] at hs
          rw [cached_fibCpp_small _ (x - 2) (by omega) (by rw [len1]; omega) h4]
          rw [(Prod.mk.inj hs).1]
        · apply cached_fibCpp_hit _ (x - 2) b (by omega) (by rw [len1]; omega)
          rw [read_eq _ _ (by omega)]
          have hne : (x - 1).toNat ≠ (x - 2).toNat := by omega
          simp only [List.getElem?_set_ne hne]
          apply keep3
          rw [← read_eq g1 _ (by omega)]
          exact readg (by omega)
      exact ⟨b + c, b, _, _, g1, e1, e2, eg, e4, len1⟩

/-- Evaluating the right operand first gives the result and the table of
`cached_fibCpp`. -/
theorem cached_fibCppRev_eq (n : Nat) : ∀ (x : Int) (f : Fib), x.toNat = n →
    f.cached_fibCppRev x = f.cached_fibCpp x := by
  induction n using Nat.strong_induction_on with
  | _ n ih =>
    intro x f hn
    by_cases h0 : x < 0
    · rw [cached_fibCppRev_neg f x h0, cached_fibCpp_neg f x h0]
    · by_cases h : toInt32 f.cache.length ≤ x
      · rw [cached_fibCppRev_range f x (by omega) h, cached_fibCpp_range f x (by omega) h]
      · have hle := toInt32_le f.cache.length
        by_cases h2 : x < 2
        · rw [cached_fibCppRev_small f x (by omega) (by omega) h2,
            cached_fibCpp_small f x (by omega) (by omega) h2]
        · have hidx : x.toNat < f.cache.length := by omega
          have hread : f.read x = some (f.cache[x.toNat]) := by
            rw [read_eq f x (by omega), List.getElem?_eq_getElem hidx]
          cases hc : f.cache[x.toNat] with
          | num u =>
            rw [hc] at hread
            rw [cached_fibCppRev_hit f x u (by omega) (by omega) hread,
              cached_fibCpp_hit f x u (by omega) (by omega) hread]
          | nan =>
            rw [hc] at hread
            obtain ⟨a, b, f1, f2, g1, e1, e2, e3, e4, len2⟩ :=
              cached_fibCpp_swap f x (by omega) (by omega)
            have r1 : f.cached_fibCppRev (x - 2) = (.value (.num b), g1) := by
              rw [ih (x - 2).toNat (by omega) (x - 2) f rfl]
              exact e3
            have r2 : g1.cached_fibCppRev (x - 1) = (.value (.num a), f2) := by
              rw [ih (x - 1).toNat (by omega) (x - 1) g1 rfl]
              exact e4
            have hidx2 : x.toNat < f2.cache.length := by rw [len2]; exact hidx
            have hw := write_eq f2 x ((Dbl.num a).add (Dbl.num b)) (by omega) hidx2
            have hr3 : (Fib.mk (f2.cache.set x.toNat ((Dbl.num a).add (Dbl.num b)))).read x
                = some (.num (a + b)) := by
              rw [read_eq _ x (by omega)]
              simp [hidx2, Dbl.add]
            rw [cached_fibCppRev_miss f g1 f2 _ x _ _ _ (by omega) (by omega) hread r1 r2 hw hr3,
              cached_fibCpp_miss f f1 f2 _ x _ _ _ (by omega) (by omega) hread e1 e2 hw hr3]

end Fib

/-! ## The log of a call on a reachable table -/

/-- C12: for every capacity `N ≥ 2` the constructor yields a table of length
exactly `N` with `table[0] = 0`, `table[1] = 1` and every slot `i` with
`2 ≤ i < N` unknown. -/
theorem C12_constructor (N : Nat) (hN : 2 ≤ N) :
    ∃ f : Fib, Fib.new N = some f ∧ f.cache.length = N ∧
      f.read 0 = some (Dbl.num 0) ∧ f.read 1 = some (Dbl.num 1) ∧
      ∀ i : Int, 2 ≤ i → i < (N : Int) → f.read i = some Dbl.nan := by
  refine ⟨filled N 1, Fib.new_eq N hN, filled_length N 1, ?_, ?_, ?_⟩
  · rw [filled_read_known N 1 0 (le_refl 0) (by simp) (by omega)]
    simp [F]
  · rw [filled_read_known N 1 1 (by decide) (by simp) (by omega)]
    simp [F]
  · intro i h2 hi
    rw [Fib.read_eq _ _ (by omega), filled_getElem? N 1 _ (by omega), if_neg (by omega)]

/-- C12 at capacity 5. -/
theorem C12_constructor_witness :
    2 ≤ 5 ∧ ∃ f : Fib, Fib.new 5 = some f ∧ f.cache.length = 5 ∧
      f.read 0 = some (Dbl.num 0) ∧ f.read 1 = some (Dbl.num 1) ∧
      ∀ i : Int, 2 ≤ i → i < ((5 : Nat) : Int) → f.read i = some Dbl.nan :=
  ⟨by decide, C12_constructor 5 (by decide)⟩

/-- C13: with `int` of 32 bits (additions modulo 2^32), for every
`0 ≤ x ≤ 46` the evaluation of `fibCpp(x)` overflows in no addition and returns
exactly `F x`; `F 47 = 2971215073` exceeds `2^31 - 1`, the evaluation of
`fibCpp(47)` overflows and returns a wrapped value different from `F 47`, and
the evaluation overflows for every `x ≥ 47`, so 46 is the largest index. -/
theorem C13_int_range :
    (∀ x : Int, 0 ≤ x → x ≤ 46 → ∀ fuel : Nat, x.toNat < fuel →
        fibCpp32 fuel x = some ((F x.toNat : Int), false)) ∧
      F 47 = 2971215073 ∧ (2 : Int) ^ 31 - 1 < (F 47 : Int) ∧
      (∀ fuel : Nat, 47 < fuel →
        fibCpp32 fuel 47 = some (-1323752223, true) ∧ (-1323752223 : Int) ≠ (F 47 : Int)) ∧
      ∀ x : Int, 47 ≤ x → ∀ fuel : Nat, x.toNat < fuel →
        ∃ v : Int, fibCpp32 fuel x = some (v, true) := by
  refine ⟨?_, F_47, ?_, ?_, ?_⟩
  · intro x h0 h46 fuel hfuel
    obtain ⟨m, rfl⟩ : ∃ m : Nat, x = (m : Int) := ⟨x.toNat, by omega⟩
    rw [Int.toNat_ofNat] at hfuel ⊢
    exact fibCpp32_small m (by omega) fuel hfuel
  · rw [F_47]
    decide
  · intro fuel hfuel
    refine ⟨fibCpp32_47 fuel hfuel, ?_⟩
    rw [F_47]
    decide
  · intro x h47 fuel hfuel
    obtain ⟨m, rfl⟩ : ∃ m : Nat, x = (m : Int) := ⟨x.toNat, by omega⟩
    rw [Int.toNat_ofNat] at hfuel
    exact fibCpp32_large m (by omega) fuel hfuel

/-- C15: for every `x < 0` the recursion of `fibCpp(x)` never reaches a base
case: every argument in the call tree, to any depth, is negative, hence
neither 0 nor 1, and no bound on the depth yields a result. -/
theorem C15_negative_never_returns (x : Int) (hx : x < 0) :
    (∀ fuel : Nat, ∀ y ∈ fibCppArgs fuel x, y < 0 ∧ y ≠ 0 ∧ y ≠ 1) ∧
      ∀ fuel : Nat, fibCpp fuel x = none := by
  refine ⟨?_, fun fuel => fibCpp_neg fuel x hx⟩
  intro fuel y hy
  have := fibCppArgs_neg fuel x hx y hy
  omega

/-- C15 at `x = -1` with depth bound 6. -/
theorem C15_negative_never_returns_witness :
    (-1 : Int) < 0 ∧ fibCpp 6 (-1) = none ∧ ∀ y ∈ fibCppArgs 6 (-1), y < 0 ∧ y ≠ 0 ∧ y ≠ 1 :=
  have h := C15_negative_never_returns (-1) (by decide)
  ⟨by decide, h.2 6, h.1 6⟩

/-- C20: with checked stores, the constructor succeeds if and only if the
capacity `n` is at least 2: the store `cache[0] = 0.0` is in bounds iff
`n ≥ 1`, the store `cache[1] = 1.0` after it iff `n ≥ 2`, and construction
fails for `n = 0` and for `n = 1`. -/
theorem C20_constructor_precondition (n : Nat) :
    ((Fib.new n).isSome = true ↔ 2 ≤ n) ∧
      (((Fib.mk (List.replicate n Dbl.nan)).write 0 (Dbl.num 0)).isSome = true ↔ 1 ≤ n) ∧
      (∀ f1 : Fib, (Fib.mk (List.replicate n Dbl.nan)).write 0 (Dbl.num 0) = some f1 →
        ((f1.write 1 (Dbl.num 1)).isSome = true ↔ 2 ≤ n)) ∧
      Fib.new 0 = none ∧ Fib.new 1 = none := by
  refine ⟨new_isSome_iff n, ?_, ?_, ?_, ?_⟩
  · simp [Fib.write]
    omega
  · intro f1 h1
    simp only [Fib.write] at h1
    split at h1
    · cases h1
    · split at h1
      · cases h1
        simp [Fib.write]
        omega
      · cases h1
  · simp [Fib.new, Fib.write]
  · simp [Fib.new, Fib.write]

/-- C16: on every cache of capacity `N ≥ 2` with arbitrary contents and for
every integer `x`, `Fib::cached_fibCpp(x)` ends in exactly one of three ways:
NaN (when `x < 0`), the range error (when `x` is not below the capacity
bound), or a number; it never accesses the vector out of bounds; every nested
call has a smaller, non-negative argument; and the nesting depth of the calls
is at most `x - 1` (0 when `x < 2`) and below the capacity. -/
theorem C16_terminates (f : Fib) (x : Int) (hN : 2 ≤ f.cache.length) :
    ((x < 0 ∧ (f.cached_fibCpp x).1 = Outcome.value Dbl.nan) ∨
        (0 ≤ x ∧ toInt32 f.cache.length ≤ x ∧ (f.cached_fibCpp x).1 = Outcome.range_error) ∨
        (0 ≤ x ∧ x < toInt32 f.cache.length ∧
          ∃ v : ℚ, (f.cached_fibCpp x).1 = Outcome.value (Dbl.num v))) ∧
      (f.cached_fibCpp x).1 ≠ Outcome.out_of_bounds ∧
      (∀ y : Int, Event.call y ∈ (f.cached_fibCppLog x).2.2 → 0 ≤ y ∧ y < x) ∧
      (f.cached_fibCppDepth x).1 = (f.cached_fibCpp x).1 ∧
      (f.cached_fibCppDepth x).2.1 = (f.cached_fibCpp x).2 ∧
      (f.cached_fibCppDepth x).2.2 ≤ (x - 1).toNat ∧
      (f.cached_fibCppDepth x).2.2 < f.cache.length := by
  by_cases h0 : x < 0
  · rw [Fib.cached_fibCpp_neg f x h0, Fib.cached_fibCppLog_neg f x h0,
      Fib.cached_fibCppDepth_neg f x h0]
    refine ⟨Or.inl ⟨h0, rfl⟩, by simp, by simp, rfl, rfl, Nat.zero_le _, by simp only; omega⟩
  · by_cases h : toInt32 f.cache.length ≤ x
    · rw [Fib.cached_fibCpp_range f x (by omega) h, Fib.cached_fibCppLog_range f x (by omega) h,
        Fib.cached_fibCppDepth_range f x (by omega) h]
      refine ⟨Or.inr (Or.inl ⟨by omega, h, rfl⟩), by simp, by simp, rfl, rfl, Nat.zero_le _,
        by simp only; omega⟩
    · have hle := toInt32_le f.cache.length
      obtain ⟨v, f', e, -⟩ := Fib.cached_fibCpp_ok x.toNat x f rfl (by omega) (by omega)
      obtain ⟨l, el, hcalls⟩ := Fib.cached_fibCppLog_ok x.toNat x f rfl (by omega) (by omega)
      obtain ⟨d, ed, hd⟩ := Fib.cached_fibCppDepth_ok x.toNat x f rfl (by omega) (by omega)
      rw [el, ed, e]
      refine ⟨Or.inr (Or.inr ⟨by omega, by omega, v, rfl⟩), by simp, hcalls, rfl, rfl, hd, ?_⟩
      simp only
      omega

/-- C16 on a table of capacity 8 with known slots 0, 1, 3 and 6 and the
argument 7. -/
theorem C16_terminates_witness :
    2 ≤ (Fib.mk [.num 0, .num 1, .nan, .num 10, .nan, .nan, .num 7, .nan]).cache.length ∧
      ((Fib.mk [.num 0, .num 1, .nan, .num 10, .nan, .nan, .num 7, .nan]).cached_fibCppDepth
        7).2.2 ≤ ((7 : Int) - 1).toNat ∧
      ((Fib.mk [.num 0, .num 1, .nan, .num 10, .nan, .nan, .num 7, .nan]).cached_fibCpp 7).1
        ≠ Outcome.out_of_bounds :=
  have h := C16_terminates (Fib.mk [.num 0, .num 1, .nan, .num 10, .nan, .nan, .num 7, .nan]) 7
    (by decide)
  ⟨by decide, h.2.2.2.2.2.1, h.2.1⟩

/-- C17: whatever the cache and the argument, evaluating the operand
`cached_fibCpp(x - 2)` before `cached_fibCpp(x - 1)` gives the value and the
final table that evaluating `cached_fibCpp(x - 1)` first gives. -/
theorem C17_evaluation_order (f : Fib) (x : Int) :
    (f.cached_fibCppRev x).1 = (f.cached_fibCpp x).1 ∧
      (f.cached_fibCppRev x).2 = (f.cached_fibCpp x).2 := by
  rw [Fib.cached_fibCppRev_eq x.toNat x f rfl]
  exact ⟨rfl, rfl⟩

/-- C19: whatever the cache and the argument, every slot index read or stored
to during `Fib::cached_fibCpp(x)`, nested calls included, lies in
`[2, N)`, and the call does not end in the out-of-bounds outcome. -/
theorem C19_in_bounds (f : Fib) (x : Int) :
    (∀ i : Int, Event.read i ∈ (f.cached_fibCppLog x).2.2 →
        2 ≤ i ∧ i < (f.cache.length : Int)) ∧
      (∀ (i : Int) (v : Dbl), Event.write i v ∈ (f.cached_fibCppLog x).2.2 →
        2 ≤ i ∧ i < (f.cache.length : Int)) ∧
      (f.cached_fibCppLog x).1 ≠ Outcome.out_of_bounds ∧
      (f.cached_fibCpp x).1 ≠ Outcome.out_of_bounds := by
  by_cases h0 : x < 0
  · rw [Fib.cached_fibCppLog_neg f x h0, Fib.cached_fibCpp_neg f x h0]
    simp
  · by_cases h : toInt32 f.cache.length ≤ x
    · rw [Fib.cached_fibCppLog_range f x (by omega) h, Fib.cached_fibCpp_range f x (by omega) h]
      simp
    · obtain ⟨hr, hw⟩ := Fib.cached_fibCppLog_bounds x.toNat x f rfl (by omega) (by omega)
      obtain ⟨v, f', e, -⟩ := Fib.cached_fibCpp_ok x.toNat x f rfl (by omega) (by omega)
      refine ⟨hr, hw, ?_, ?_⟩
      · rw [(Fib.cached_fibCppLog_erase f x).1, e]
        simp
      · rw [e]
        simp

/-! ## IEEE double arithmetic: the values -/

namespace IEEE

theorem overflowBound_eq : overflowBound = 2 ^ 1024 := by
  have h : (2 : Nat) ^ 1024 = (2 ^ 256) ^ 4 := by rw [← Nat.pow_mul]
  rw [h]
  unfold overflowBound
  norm_num

theorem dropBits_small (n : Nat) (h : n < 2 ^ 53) : dropBits n n = 0 := by
  cases n with
  | zero => rfl
  | succ m =>
    unfold dropBits
    rw [if_pos h]

theorem roundTo_zero (n : Nat) : roundTo 0 n = n := by
  simp [roundTo, Nat.mod_one]

theorem round53_small (n : Nat) (h : n < 2 ^ 53) : round53 n = Dbl.fin n := by
  have hb : n < overflowBound := Nat.lt_of_lt_of_le h (by decide)
  unfold round53
  rw [dropBits_small n h, roundTo_zero, if_pos hb]

theorem round53_isnan (n : Nat) : (round53 n).isnan = false := by
  unfold round53
  by_cases h : roundTo (dropBits n n) n < overflowBound
  · rw [if_pos h]
    rfl
  · rw [if_neg h]
    rfl

theorem add_isnan64 (a b : Dbl) (ha : a.isnan = false) (hb : b.isnan = false) :
    (a.add b).isnan = false := by
  cases a with
  | nan => cases ha
  | inf =>
    cases b with
    | nan => cases hb
    | inf => rfl
    | fin m => rfl
  | fin n =>
    cases b with
    | nan => cases hb
    | inf => rfl
    | fin m => exact round53_isnan (n + m)

theorem add_comm64 (a b : Dbl) : a.add b = b.add a := by
  cases a <;> cases b <;> simp [Dbl.add, Nat.add_comm]

theorem Fd_add_two (n : Nat) : Fd (n + 2) = (Fd (n + 1)).add (Fd n) := rfl

theorem Fd_isnan (n : Nat) : (Fd n).isnan = false := by
  induction n using Nat.strong_induction_on with
  | _ n ih =>
    rcases n with _ | _ | j
    · rfl
    · rfl
    · rw [Fd_add_two]
      exact add_isnan64 _ _ (ih (j + 1) (by omega)) (ih j (by omega))

theorem F_77 : F 77 = 5527939700884757 := by
  rw [F_eq_fib]
  norm_num

theorem F_78 : F 78 = 8944394323791464 := by
  rw [F_eq_fib]
  norm_num

theorem F_79 : F 79 = 14472334024676221 := by
  rw [F_eq_fib]
  norm_num

/-- The Fibonacci numbers below `2^53` are those of index at most 78. -/
theorem F_lt_iff (n : Nat) : F n < 2 ^ 53 ↔ n ≤ 78 := by
  constructor
  · intro h
    by_contra hn
    have h79 := F_mono 79 n (by omega)
    rw [F_79] at h79
    have : (2 : Nat) ^ 53 = 9007199254740992 := by norm_num
    omega
  · intro h
    have h78 := F_mono n 78 h
    rw [F_78] at h78
    have : (2 : Nat) ^ 53 = 9007199254740992 := by norm_num
    omega

/-- While the Fibonacci number is below `2^53`, `double` arithmetic computes
it exactly. -/
theorem Fd_exact (n : Nat) : F n < 2 ^ 53 → Fd n = Dbl.fin (F n) := by
  induction n using Nat.strong_induction_on with
  | _ n ih =>
    intro h
    rcases n with _ | _ | j
    · rfl
    · rfl
    · have h2 := h
      rw [F_add_two] at h2
      rw [Fd_add_two, ih (j + 1) (by omega) (by omega), ih j (by omega) (by omega), F_add_two]
      exact round53_small _ h2

/-- At index 79 the sum `F 78 + F 77` is odd and above `2^53`: it is rounded to
the even neighbour below. -/
theorem Fd_79 : Fd 79 = Dbl.fin 14472334024676220 := by
  rw [Fd_add_two, Fd_exact 78 ((F_lt_iff 78).2 (by decide)),
    Fd_exact 77 ((F_lt_iff 77).2 (by decide)), F_78, F_77]
  decide

/-! ## IEEE double arithmetic: the cached variant -/

namespace Fib

theorem read_eq64 (f : Fib) (x : Int) (h : 0 ≤ x) : f.read x = f.cache[x.toNat]? := by
  unfold read
  simp [not_lt.2 h]

theorem write_eq64 (f : Fib) (x : Int) (v : Dbl) (h : 0 ≤ x)
    (hlt : x.toNat < f.cache.length) : f.write x v = some ⟨f.cache.set x.toNat v⟩ := by
  unfold write
  simp [not_lt.2 h, hlt]

theorem call_neg64 (f : Fib) (x : Int) (h : x < 0) :
    f.cached_fibCpp x = (.value .nan, f, []) := by
  rw [cached_fibCpp]
  simp [h]

theorem call_range64 (f : Fib) (x : Int) (h0 : 0 ≤ x)
    (h : toInt32 f.cache.length ≤ x) : f.cached_fibCpp x = (.range_error, f, []) := by
  rw [cached_fibCpp]
  simp [not_lt.2 h0, h]

theorem call_small64 (f : Fib) (x : Int) (h0 : 0 ≤ x)
    (h : x < toInt32 f.cache.length) (h2 : x < 2) :
    f.cached_fibCpp x = (.value (Dbl.ofInt x), f, []) := by
  rw [cached_fibCpp]
  simp [not_lt.2 h0, h, h2]

theorem call_hit64 (f : Fib) (x : Int) (d : Dbl) (h2 : 2 ≤ x)
    (h : x < toInt32 f.cache.length) (hr : f.read x = some d) (hd : d.isnan = false) :
    f.cached_fibCpp x = (.value d, f, [.read x, .read x]) := by
  rw [cached_fibCpp]
  have h0 : ¬ x < 0 := by omega
  have h2 : ¬ x < 2 := by omega
  simp [h0, h, h2, hr, hd]

theorem call_miss64 (f f1 f2 f3 : Fib) (x : Int) (a b r : Dbl)
    (l1 l2 : List Event) (h2 : 2 ≤ x)
    (h : x < toInt32 f.cache.length) (hr : f.read x = some .nan)
    (e1 : f.cached_fibCpp (x - 1) = (.value a, f1, l1))
    (e2 : f1.cached_fibCpp (x - 2) = (.value b, f2, l2))
    (hw : f2.write x (a.add b) = some f3) (hr3 : f3.read x = some r) :
    f.cached_fibCpp x = (.value r, f3,
      .read x :: .call (x - 1) :: l1 ++ .call (x - 2) :: l2
        ++ [.add a b, .write x (a.add b), .read x]) := by
  rw [cached_fibCpp]
  have h0 : ¬ x < 0 := by omega
  have h2 : ¬ x < 2 := by omega
  simp [h0, h, h2, hr, Dbl.isnan, e1, e2, hw, hr3]

end Fib

theorem filled_length64 (N k : Nat) : (filled N k).cache.length = N := by
  simp [filled]

theorem filled_getElem64 (N k i : Nat) (h : i < N) :
    (filled N k).cache[i]? = some (if i ≤ k then Fd i else Dbl.nan) := by
  simp [filled, List.getElem?_range h]

theorem filled_read64 (N k : Nat) (i : Int) (d : Dbl) (h : (filled N k).read i = some d) :
    0 ≤ i ∧ i.toNat < N ∧ d = if i.toNat ≤ k then Fd i.toNat else Dbl.nan := by
  unfold Fib.read at h
  by_cases h0 : i < 0
  · simp [h0] at h
  · rw [if_neg h0] at h
    by_cases hi : i.toNat < N
    · rw [filled_getElem64 N k _ hi] at h
      exact ⟨by omega, hi, (Option.some.inj h).symm⟩
    · rw [List.getElem?_eq_none (by rw [filled_length64]; omega)] at h
      cases h

theorem filled_read_known64 (N k : Nat) (i : Int) (h0 : 0 ≤ i) (hk : i.toNat ≤ k)
    (hkN : k < N) : (filled N k).read i = some (Fd i.toNat) := by
  rw [Fib.read_eq64 _ _ h0, filled_getElem64 N k _ (by omega), if_pos hk]

theorem new_eq64 (N : Nat) (h : 2 ≤ N) : Fib.new N = some (filled N 1) := by
  have h0 : (0 : Int).toNat < (List.replicate N Dbl.nan).length := by simp; omega
  have h1 : (1 : Int).toNat <
      (Fib.mk ((List.replicate N Dbl.nan).set (0 : Int).toNat (Dbl.fin 0))).cache.length := by
    simp; omega
  unfold Fib.new
  simp only [Fib.write_eq64 _ 0 _ (le_refl 0) h0, Option.some_bind,
    Fib.write_eq64 _ 1 _ (by decide) h1, Option.some.injEq]
  unfold filled
  congr 1
  apply List.ext_getElem (by simp)
  intro i h₁ h₂
  rcases i with _ | _ | i
  · simp [Fd, List.getElem_set]
  · simp [Fd, List.getElem_set]
  · simp [List.getElem_set]

theorem filled_write64 (N k : Nat) (h : k + 1 < N) :
    (filled N k).write ((k + 1 : Nat) : Int) (Fd (k + 1)) = some (filled N (k + 1)) := by
  rw [Fib.write_eq64 _ _ _ (Int.ofNat_nonneg _) (by simpa [filled_length64] using h)]
  simp only [Int.toNat_ofNat, Option.some.injEq]
  unfold filled
  congr 1
  apply List.ext_getElem (by simp)
  intro i h₁ h₂
  by_cases hik : k + 1 = i
  · subst hik
    simp
  · have hiff : i ≤ k + 1 ↔ i ≤ k := by omega
    simp [List.getElem_set, hik, hiff]

/-- A call on a known slot of `filled N k`: the stored value is returned, the
table stays, and the run only reads the slot. -/
theorem filled_hit64 (N k : Nat) (y : Int) (hkN : k < N) (h2 : 2 ≤ y) (hyk : y.toNat ≤ k)
    (hlt : y < toInt32 N) :
    (filled N k).cached_fibCpp y
      = (.value (Fd y.toNat), filled N k, [.read y, .read y]) :=
  Fib.call_hit64 _ y _ h2 (by rw [filled_length64]; exact hlt)
    (filled_read_known64 N k y (by omega) hyk hkN) (Fd_isnan _)

/-- A call on the table `filled N k` with `0 ≤ n` below the capacity bound
returns `Fd n` and leaves `filled N (max k n)`. -/
theorem filled_call64 (N : Nat) (n : Nat) : ∀ k : Nat, 1 ≤ k → k < N →
    (n : Int) < toInt32 N →
    ∃ l : List Event,
      (filled N k).cached_fibCpp (n : Int) = (.value (Fd n), filled N (max k n), l) := by
  induction n using Nat.strong_induction_on with
  | _ n ih =>
    intro k hk hkN hlt
    have hle := toInt32_le N
    have hlt' : (n : Int) < toInt32 (filled N k).cache.length := by
      rw [filled_length64]
      exact hlt
    rcases n with _ | _ | j
    · refine ⟨[], ?_⟩
      rw [Fib.call_small64 _ _ (by simp) hlt' (by simp)]
      simp [Dbl.ofInt, Fd]
    · refine ⟨[], ?_⟩
      rw [Fib.call_small64 _ _ (by simp) hlt' (by simp)]
      simp [Dbl.ofInt, Fd, hk]
    · have hjN : j + 2 < N := by omega
      by_cases hjk : j + 2 ≤ k
      · refine ⟨[.read ((j + 2 : Nat) : Int), .read ((j + 2 : Nat) : Int)], ?_⟩
        rw [filled_hit64 N k _ hkN (by omega) (by rw [Int.toNat_ofNat]; exact hjk) hlt,
          max_eq_left hjk, Int.toNat_ofNat]
      · have hread : (filled N k).read ((j + 2 : Nat) : Int) = some Dbl.nan := by
          rw [Fib.read_eq64 _ _ (Int.ofNat_nonneg _), Int.toNat_ofNat,
            filled_getElem64 N k _ hjN, if_neg hjk]
        obtain ⟨l1, e1⟩ := ih (j + 1) (by omega) k hk hkN (by omega)
        obtain ⟨l2, e2⟩ := ih j (by omega) (j + 1) (by omega) (by omega) (by omega)
        rw [max_eq_right (by omega : k ≤ j + 1)] at e1
        rw [max_eq_left (by omega : j ≤ j + 1)] at e2
        have c1 : (((j + 2 : Nat) : Int) - 1) = ((j + 1 : Nat) : Int) := by omega
        have c2 : (((j + 2 : Nat) : Int) - 2) = ((j : Nat) : Int) := by omega
        rw [← c1] at e1
        rw [← c2] at e2
        have hw : (filled N (j + 1)).write ((j + 2 : Nat) : Int)
            ((Fd (j + 1)).add (Fd j)) = some (filled N (j + 2)) :=
          filled_write64 N (j + 1) hjN
        have hr3 : (filled N (j + 2)).read ((j + 2 : Nat) : Int) = some (Fd (j + 2)) :=
          filled_read_known64 N (j + 2) _ (Int.ofNat_nonneg _) (by simp) hjN
        rw [max_eq_right (by omega : k ≤ j + 1 + 1)]
        exact ⟨_, Fib.call_miss64 _ _ _ _ _ _ _ _ l1 l2 (by omega) hlt' hread e1 e2 hw hr3⟩

/-- Whatever the argument, a call on `filled N k` leaves a table of the same
form, with at least the slots known before. -/
theorem filled_step64 (N k : Nat) (hk : 1 ≤ k) (hkN : k < N) (x : Int) :
    ∃ k', k ≤ k' ∧ k' < N ∧ ((filled N k).cached_fibCpp x).2.1 = filled N k' := by
  by_cases h0 : x < 0
  · exact ⟨k, le_refl k, hkN, by rw [Fib.call_neg64 _ _ h0]⟩
  · by_cases h : toInt32 (filled N k).cache.length ≤ x
    · exact ⟨k, le_refl k, hkN, by rw [Fib.call_range64 _ _ (by omega) h]⟩
    · rw [filled_length64] at h
      have hle := toInt32_le N
      obtain ⟨m, rfl⟩ : ∃ m : Nat, x = (m : Int) := ⟨x.toNat, by omega⟩
      obtain ⟨l, e⟩ := filled_call64 N m k hk hkN (by omega)
      refine ⟨max k m, le_max_left _ _, ?_, by rw [e]⟩
      apply max_lt hkN
      omega

/-- The tables reachable from `Fib(N)` are of the form `filled N k` with
`1 ≤ k < N`. -/
theorem reachable_filled64 (N : Nat) (hN : 2 ≤ N) (f : Fib) (h : Reachable N f) :
    ∃ k, 1 ≤ k ∧ k < N ∧ f = filled N k := by
  induction h with
  | init f hf =>
    rw [new_eq64 N hN] at hf
    exact ⟨1, le_refl 1, by omega, (Option.some.inj hf).symm⟩
  | step f x _ ih =>
    obtain ⟨k, hk, hkN, rfl⟩ := ih
    obtain ⟨k', hkk, hk', e⟩ := filled_step64 N k hk hkN x
    exact ⟨k', by omega, hk', e⟩

/-- Further calls on `filled N k` keep the form and never forget a slot. -/
theorem reachableFrom_filled64 (N k : Nat) (hk : 1 ≤ k) (hkN : k < N) (g : Fib)
    (h : ReachableFrom (filled N k) g) : ∃ k', k ≤ k' ∧ k' < N ∧ g = filled N k' := by
  induction h with
  | refl => exact ⟨k, le_refl k, hkN, rfl⟩
  | step g x _ ih =>
    obtain ⟨k1, hk1, hk1N, rfl⟩ := ih
    obtain ⟨k', hkk, hk', e⟩ := filled_step64 N k1 (by omega) hk1N x
    exact ⟨k', by omega, hk', e⟩

/-- A call below the capacity bound on a reachable table, in closed form. -/
theorem reachable_call64 (N : Nat) (hN : 2 ≤ N) (f : Fib) (h : Reachable N f) (x : Int)
    (h0 : 0 ≤ x) (hx : x < toInt32 N) :
    ∃ (k : Nat) (l : List Event), 1 ≤ k ∧ k < N ∧ f = filled N k ∧
      f.cached_fibCpp x = (.value (Fd x.toNat), filled N (max k x.toNat), l) := by
  obtain ⟨k, hk, hkN, rfl⟩ := reachable_filled64 N hN f h
  obtain ⟨m, rfl⟩ : ∃ m : Nat, x = (m : Int) := ⟨x.toNat, by omega⟩
  obtain ⟨l, e⟩ := filled_call64 N m k hk hkN hx
  exact ⟨k, l, hk, hkN, rfl, by rw [e, Int.toNat_ofNat]⟩

/-! ## IEEE double arithmetic: the loop of `iter_fibCpp` -/

theorem iterLoop_done64 (x : Int) (s : IterState) (h : ¬ s.i < x) : iterLoop x s = s := by
  rw [iterLoop]
  simp [h]

theorem iterLoop_step64 (x : Int) (s : IterState) (h : s.i < x) :
    iterLoop x s =
      iterLoop x ⟨s.i + 1, s.second, s.first.add s.second, s.first.add s.second, s.runs + 1⟩ := by
  rw [iterLoop]
  simp [h]

/-- Entered with `first = Fd i` and `second = Fd (i+1)`, the loop runs its
body `x - i` times and leaves `first = Fd x` and `second = Fd (x+1)`. -/
theorem iterLoop_spec64 (x : Int) (d : Nat) : ∀ s : IterState, (x - s.i).toNat = d →
    0 ≤ s.i → s.i ≤ x → s.first = Fd s.i.toNat → s.second = Fd (s.i.toNat + 1) →
    (iterLoop x s).i = x ∧ (iterLoop x s).first = Fd x.toNat ∧
      (iterLoop x s).second = Fd (x.toNat + 1) ∧
      ((iterLoop x s).runs : Int) = s.runs + (x - s.i) := by
  induction d with
  | zero =>
    intro s hd h0 hle hf hs
    have hi : s.i = x := by omega
    rw [iterLoop_done64 x s (by omega)]
    refine ⟨hi, ?_, ?_, by omega⟩
    · rw [hf, hi]
    · rw [hs, hi]
  | succ d ih =>
    intro s hd h0 hle hf hs
    have hlt : s.i < x := by omega
    have hnat : (s.i + 1).toNat = s.i.toNat + 1 := by omega
    rw [iterLoop_step64 x s hlt]
    obtain ⟨r1, r2, r3, r4⟩ :=
      ih ⟨s.i + 1, s.second, s.first.add s.second, s.first.add s.second, s.runs + 1⟩
        (by simp only; omega) (by simp only; omega) (by simp only; omega)
        (by simp only; rw [hs, hnat])
        (by simp only; rw [hf, hs, hnat, Fd_add_two, add_comm64])
    refine ⟨r1, r2, r3, ?_⟩
    rw [r4]
    push_cast
    ring

theorem iterLoop_init64 (x : Int) (h0 : 0 ≤ x) :
    (iterLoop x iterInit).first = Fd x.toNat ∧
      (iterLoop x iterInit).second = Fd (x.toNat + 1) ∧
      ((iterLoop x iterInit).runs : Int) = x := by
  obtain ⟨-, r2, r3, r4⟩ := iterLoop_spec64 x (x - iterInit.i).toNat iterInit rfl
    (by simp [iterInit]) (by simpa [iterInit] using h0) (by simp [iterInit, Fd])
    (by simp [iterInit, Fd])
  refine ⟨r2, r3, ?_⟩
  rw [r4]
  simp [iterInit]

/-- For `x ≥ 0`, `iter_fibCpp` returns `Fd x`. -/
theorem iter_fibCpp_Fd (x : Int) (h0 : 0 ≤ x) : iter_fibCpp x = Fd x.toNat := by
  unfold iter_fibCpp
  rw [if_neg (by omega)]
  by_cases h2 : x < 2
  · rw [if_pos h2]
    obtain rfl | rfl : x = 0 ∨ x = 1 := by omega
    · rfl
    · rfl
  · rw [if_neg h2]
    exact (iterLoop_init64 x h0).1

end IEEE

/-- Every evaluation of 32-bit `fibCpp` at `n ≥ 0` with fuel above `n` ends,
with `F n` reduced to the 32-bit range. -/
theorem fibCpp32_wrap (n : Nat) : ∀ fuel : Nat, n < fuel →
    ∃ ov : Bool, fibCpp32 fuel (n : Int) = some (wrap32 (F n : Int), ov) := by
  induction n using Nat.strong_induction_on with
  | _ n ih =>
    intro fuel hfuel
    obtain ⟨g, rfl⟩ : ∃ g, fuel = g + 1 := ⟨fuel - 1, by omega⟩
    rcases n with _ | _ | j
    · exact ⟨false, by simp [fibCpp32, F, wrap32]⟩
    · exact ⟨false, by simp [fibCpp32, F, wrap32]⟩
    · have c1 : (((j + 2 : Nat) : Int) - 1) = ((j + 1 : Nat) : Int) := by omega
      have c2 : (((j + 2 : Nat) : Int) - 2) = ((j : Nat) : Int) := by omega
      have n0 : ¬ ((j + 2 : Nat) : Int) = 0 := by omega
      have n1 : ¬ ((j + 2 : Nat) : Int) = 1 := by omega
      obtain ⟨oa, ea⟩ := ih (j + 1) (by omega) g (by omega)
      obtain ⟨ob, eb⟩ := ih j (by omega) g (by omega)
      have hw : wrap32 (wrap32 (F (j + 1) : Int) + wrap32 (F j : Int))
          = wrap32 ((F (j + 2) : Nat) : Int) := by
        rw [F_add_two]
        unfold wrap32
        push_cast
        omega
      unfold fibCpp32
      rw [if_neg n0, if_neg n1, c1, c2, ea, eb]
      simp only [hw]
      exact ⟨_, rfl⟩

/-! ## Claims about returned and stored values, in IEEE double and 32-bit int arithmetic -/

/-- C1, as stated, fails in two ways.  On the cache constructed with capacity
2^31 (a valid `unsigned int`), `(int) cache.size()` is negative, so the call
with `x = 5`, which satisfies `0 ≤ x < N`, throws the range error.  On the
cache constructed with capacity 2000 the call with `x = 79` returns
14472334024676220, the double nearest to `F 78 + F 77`, and not
`F 79 = 14472334024676221`. -/
theorem C1_fails_at_capacity_and_rounding :
    (IEEE.Reachable 2147483648 (IEEE.filled 2147483648 1) ∧ (0 : Int) ≤ 5 ∧
        (5 : Int) < ((2147483648 : Nat) : Int) ∧
        ((IEEE.filled 2147483648 1).cached_fibCpp 5).1 = IEEE.Outcome.range_error) ∧
      (IEEE.Reachable 2000 (IEEE.filled 2000 1) ∧ (0 : Int) ≤ 79 ∧
        (79 : Int) < ((2000 : Nat) : Int) ∧
        ((IEEE.filled 2000 1).cached_fibCpp 79).1
          = IEEE.Outcome.value (IEEE.Dbl.fin 14472334024676220) ∧
        F 79 = 14472334024676221) := by
  refine ⟨⟨IEEE.Reachable.init _ (IEEE.new_eq64 _ (by decide)), by decide, by decide, ?_⟩,
    ⟨IEEE.Reachable.init _ (IEEE.new_eq64 _ (by decide)), by decide, by decide, ?_, IEEE.F_79⟩⟩
  · rw [IEEE.Fib.call_range64 _ 5 (by decide)
      (by rw [IEEE.filled_length64]; unfold toInt32; omega)]
  · obtain ⟨l, e⟩ := IEEE.filled_call64 2000 79 1 (by decide) (by decide) (by decide)
    have e' : (IEEE.filled 2000 1).cached_fibCpp 79
        = (IEEE.Outcome.value (IEEE.Fd 79), IEEE.filled 2000 (max 1 79), l) := e
    rw [e', IEEE.Fd_79]

/-- C1 (amended): in every cache state reachable from a freshly constructed
`Fib` of capacity `N` with `2 ≤ N < 2^31` (so that `N` is representable as
`int`), and for every `x` with `0 ≤ x < N` and `F x < 2^53` (the range in which
doubles represent `F x` exactly), `Fib::cached_fibCpp(x)`, computing in IEEE
double arithmetic, returns exactly the `x`-th Fibonacci number. -/
theorem C1_cached_returns_exact_fib (N : Nat) (f : IEEE.Fib) (x : Int) (hN : 2 ≤ N)
    (hint : N < 2 ^ 31) (hr : IEEE.Reachable N f) (h0 : 0 ≤ x) (hx : x < (N : Int))
    (hexact : F x.toNat < 2 ^ 53) :
    (f.cached_fibCpp x).1 = IEEE.Outcome.value (IEEE.Dbl.fin (F x.toNat)) := by
  obtain ⟨k, l, -, -, -, e⟩ :=
    IEEE.reachable_call64 N hN f hr x h0 (by rw [toInt32_of_lt N hint]; exact hx)
  rw [e, IEEE.Fd_exact _ hexact]

/-- C1 (amended) at capacity 2000, after an earlier call with argument 100
(which stores rounded values above slot 78): the call with `x = 78` returns
`F 78`. -/
theorem C1_cached_returns_exact_fib_witness :
    (2 ≤ 2000 ∧ 2000 < 2 ^ 31 ∧
      IEEE.Reachable 2000 ((IEEE.filled 2000 1).cached_fibCpp 100).2.1 ∧
      (0 : Int) ≤ 78 ∧ (78 : Int) < ((2000 : Nat) : Int) ∧ F (78 : Int).toNat < 2 ^ 53) ∧
      ((((IEEE.filled 2000 1).cached_fibCpp 100).2.1).cached_fibCpp 78).1
        = IEEE.Outcome.value (IEEE.Dbl.fin (F (78 : Int).toNat)) :=
  have hr : IEEE.Reachable 2000 ((IEEE.filled 2000 1).cached_fibCpp 100).2.1 :=
    IEEE.Reachable.step _ 100 (IEEE.Reachable.init _ (IEEE.new_eq64 2000 (by decide)))
  have hexact : F (78 : Int).toNat < 2 ^ 53 := (IEEE.F_lt_iff 78).2 (by decide)
  ⟨⟨by decide, by decide, hr, by decide, by decide, hexact⟩,
    C1_cached_returns_exact_fib 2000 _ 78 (by decide) (by decide) hr (by decide) (by decide)
      hexact⟩

/-- C3, as stated, fails: `iter_fibCpp(79)` returns 14472334024676220, the
double nearest to `F 78 + F 77`, and not `F 79 = 14472334024676221`. -/
theorem C3_fails_at_79 :
    (0 : Int) ≤ 79 ∧ IEEE.iter_fibCpp 79 = IEEE.Dbl.fin 14472334024676220 ∧
      F 79 = 14472334024676221 ∧ IEEE.iter_fibCpp 79 ≠ IEEE.Dbl.fin (F 79) := by
  have e : IEEE.iter_fibCpp 79 = IEEE.Dbl.fin 14472334024676220 := by
    rw [IEEE.iter_fibCpp_Fd 79 (by decide)]
    exact IEEE.Fd_79
  refine ⟨by decide, e, IEEE.F_79, ?_⟩
  rw [e, IEEE.F_79]
  decide

/-- C3 (amended): for every `x ≥ 0`, `iter_fibCpp(x)`, computing in IEEE double
arithmetic, returns `x` itself for `x < 2`; for `x ≥ 2` the loop body runs
exactly `x` times, after which `first` (the value returned) and `second` hold
the terms `x` and `x + 1` of the Fibonacci recurrence in double arithmetic;
they are `F x` when `F x < 2^53` and `F (x+1)` when `F (x+1) < 2^53`, so the
function returns `F x` whenever `F x < 2^53`; the results at `x = 2` and
`x = 3` are `1` and `2`. -/
theorem C3_iter_returns_exact_fib (x : Int) (h0 : 0 ≤ x) :
    (F x.toNat < 2 ^ 53 → IEEE.iter_fibCpp x = IEEE.Dbl.fin (F x.toNat)) ∧
      (x < 2 → IEEE.iter_fibCpp x = IEEE.Dbl.ofInt x) ∧
      (2 ≤ x → ((IEEE.iterLoop x IEEE.iterInit).runs : Int) = x ∧
        (IEEE.iterLoop x IEEE.iterInit).first = IEEE.Fd x.toNat ∧
        (IEEE.iterLoop x IEEE.iterInit).second = IEEE.Fd (x.toNat + 1) ∧
        IEEE.iter_fibCpp x = (IEEE.iterLoop x IEEE.iterInit).first ∧
        (F x.toNat < 2 ^ 53 →
          (IEEE.iterLoop x IEEE.iterInit).first = IEEE.Dbl.fin (F x.toNat)) ∧
        (F (x.toNat + 1) < 2 ^ 53 →
          (IEEE.iterLoop x IEEE.iterInit).second = IEEE.Dbl.fin (F (x.toNat + 1)))) ∧
      IEEE.iter_fibCpp 2 = IEEE.Dbl.fin 1 ∧ IEEE.iter_fibCpp 3 = IEEE.Dbl.fin 2 := by
  have hloop := IEEE.iterLoop_init64 x h0
  refine ⟨?_, ?_, ?_, ?_, ?_⟩
  · intro hexact
    rw [IEEE.iter_fibCpp_Fd x h0, IEEE.Fd_exact _ hexact]
  · intro h2
    unfold IEEE.iter_fibCpp
    rw [if_neg (by omega), if_pos h2]
  · intro h2
    refine ⟨hloop.2.2, hloop.1, hloop.2.1, ?_, ?_, ?_⟩
    · unfold IEEE.iter_fibCpp
      rw [if_neg (by omega), if_neg (by omega)]
    · intro hexact
      rw [hloop.1, IEEE.Fd_exact _ hexact]
    · intro hexact
      rw [hloop.2.1, IEEE.Fd_exact _ hexact]
  · rw [IEEE.iter_fibCpp_Fd 2 (by decide)]
    exact IEEE.Fd_exact 2 ((IEEE.F_lt_iff 2).2 (by decide))
  · rw [IEEE.iter_fibCpp_Fd 3 (by decide)]
    exact IEEE.Fd_exact 3 ((IEEE.F_lt_iff 3).2 (by decide))

/-- C3 (amended) at `x = 78`, the last index with `F x < 2^53`: the loop body
runs 78 times and the result is `F 78`. -/
theorem C3_iter_returns_exact_fib_witness :
    (0 : Int) ≤ 78 ∧ IEEE.iter_fibCpp 78 = IEEE.Dbl.fin (F (78 : Int).toNat) ∧
      ((IEEE.iterLoop 78 IEEE.iterInit).runs : Int) = 78 :=
  have h := C3_iter_returns_exact_fib 78 (by decide)
  ⟨by decide, h.1 ((IEEE.F_lt_iff 78).2 (by decide)), (h.2.2.1 (by decide)).1⟩

/-- C4, as stated, fails: with the 32-bit `int` of the source, `fibCpp(47)`
returns -1323752223 after an overflowing addition, and not
`F 47 = 2971215073`, which no `int` holds. -/
theorem C4_fails_at_47 :
    (0 : Int) ≤ 47 ∧ fibCpp32 48 47 = some (-1323752223, true) ∧
      F 47 = 2971215073 ∧ (2 : Int) ^ 31 - 1 < (F 47 : Int) ∧
      fibCpp32 48 47 ≠ some ((F 47 : Int), false) := by
  refine ⟨by decide, fibCpp32_47 48 (by decide), F_47, ?_, ?_⟩
  · rw [F_47]
    decide
  · rw [fibCpp32_47 48 (by decide)]
    simp

/-- C4 (amended): for every `x ≥ 0` the recursion of `fibCpp(x)`, with the
32-bit `int` of the source and additions modulo 2^32, ends (any bound on the
recursion depth above `x` is enough) and returns `F x` reduced to the range of
`int`; for `0 ≤ x ≤ 46` no addition overflows and the result is `F x`
itself. -/
theorem C4_fibCpp_returns_fib_in_range (x : Int) (h0 : 0 ≤ x) :
    ∀ fuel : Nat, x.toNat < fuel →
      (∃ ov : Bool, fibCpp32 fuel x = some (wrap32 (F x.toNat : Int), ov)) ∧
      (x ≤ 46 → fibCpp32 fuel x = some ((F x.toNat : Int), false)) := by
  obtain ⟨m, rfl⟩ : ∃ m : Nat, x = (m : Int) := ⟨x.toNat, by omega⟩
  intro fuel hfuel
  rw [Int.toNat_ofNat] at hfuel ⊢
  exact ⟨fibCpp32_wrap m fuel hfuel, fun h46 => fibCpp32_small m (by omega) fuel hfuel⟩

/-- C4 (amended) at `x = 46`, the last index whose Fibonacci number fits
`int`, with depth bound 47. -/
theorem C4_fibCpp_returns_fib_in_range_witness :
    (0 : Int) ≤ 46 ∧ (46 : Int).toNat < 47 ∧
      fibCpp32 47 46 = some ((F (46 : Int).toNat : Int), false) :=
  ⟨by decide, by decide,
    (C4_fibCpp_returns_fib_in_range 46 (by decide) 47 (by decide)).2 (by decide)⟩

/-- C7, as stated, fails: after `cached_fibCpp(79)` on the cache constructed
with capacity 2000, slot 79 is known and holds 14472334024676220, not
`F 79 = 14472334024676221`. -/
theorem C7_fails_at_slot_79 :
    IEEE.Reachable 2000 ((IEEE.filled 2000 1).cached_fibCpp 79).2.1 ∧
      ((IEEE.filled 2000 1).cached_fibCpp 79).2.1.read 79
        = some (IEEE.Dbl.fin 14472334024676220) ∧
      (IEEE.Dbl.fin 14472334024676220).isnan = false ∧ F 79 = 14472334024676221 := by
  refine ⟨IEEE.Reachable.step _ 79 (IEEE.Reachable.init _ (IEEE.new_eq64 2000 (by decide))),
    ?_, rfl, IEEE.F_79⟩
  obtain ⟨l, e⟩ := IEEE.filled_call64 2000 79 1 (by decide) (by decide) (by decide)
  have e' : (IEEE.filled 2000 1).cached_fibCpp 79
      = (IEEE.Outcome.value (IEEE.Fd 79), IEEE.filled 2000 (max 1 79), l) := e
  rw [e']
  have hmax : max 1 79 = 79 := by decide
  simp only [hmax]
  rw [IEEE.filled_read_known64 2000 79 79 (by decide) (by decide) (by decide)]
  exact congrArg some IEEE.Fd_79

/-- C7 (amended): in every state reachable from a freshly constructed cache of
capacity `N ≥ 2` by calls with arbitrary arguments, the table has length `N`,
`table[0] = 0`, `table[1] = 1`, and every slot `i` that is not NaN holds the
`i`-th term of the Fibonacci recurrence in IEEE double arithmetic, which is
exactly `F i` whenever `F i < 2^53`. -/
theorem C7_cache_invariant_rounded (N : Nat) (f : IEEE.Fib) (hN : 2 ≤ N)
    (hr : IEEE.Reachable N f) :
    f.cache.length = N ∧ f.read 0 = some (IEEE.Dbl.fin 0) ∧
      f.read 1 = some (IEEE.Dbl.fin 1) ∧
      ∀ (i : Int) (d : IEEE.Dbl), f.read i = some d → d.isnan = false →
        d = IEEE.Fd i.toNat ∧ (F i.toNat < 2 ^ 53 → d = IEEE.Dbl.fin (F i.toNat)) := by
  obtain ⟨k, hk, hkN, rfl⟩ := IEEE.reachable_filled64 N hN f hr
  refine ⟨IEEE.filled_length64 N k, ?_, ?_, ?_⟩
  · rw [IEEE.filled_read_known64 N k 0 (le_refl 0) (by simp) hkN]
    rfl
  · rw [IEEE.filled_read_known64 N k 1 (by decide) (by simpa using hk) hkN]
    rfl
  · intro i d hd hnan
    obtain ⟨-, -, rfl⟩ := IEEE.filled_read64 N k i d hd
    by_cases hik : i.toNat ≤ k
    · rw [if_pos hik]
      exact ⟨rfl, fun hexact => IEEE.Fd_exact _ hexact⟩
    · rw [if_neg hik] at hnan
      cases hnan

/-- C7 (amended) at capacity 2000, after a call that fills up to slot 100, one
that returns NaN and one that throws. -/
theorem C7_cache_invariant_rounded_witness :
    (2 ≤ 2000 ∧ IEEE.Reachable 2000
      ((((IEEE.filled 2000 1).cached_fibCpp 100).2.1.cached_fibCpp (-3)).2.1.cached_fibCpp
        2000).2.1) ∧
      ((((IEEE.filled 2000 1).cached_fibCpp 100).2.1.cached_fibCpp (-3)).2.1.cached_fibCpp
        2000).2.1.read 1 = some (IEEE.Dbl.fin 1) :=
  have hr : IEEE.Reachable 2000
      ((((IEEE.filled 2000 1).cached_fibCpp 100).2.1.cached_fibCpp (-3)).2.1.cached_fibCpp
        2000).2.1 :=
    IEEE.Reachable.step _ 2000 (IEEE.Reachable.step _ (-3)
      (IEEE.Reachable.step _ 100 (IEEE.Reachable.init _ (IEEE.new_eq64 2000 (by decide)))))
  ⟨⟨by decide, hr⟩, (C7_cache_invariant_rounded 2000 _ (by decide) hr).2.2.1⟩

/-- C8, as stated, fails: after the successful `cached_fibCpp(79)` on the cache
constructed with capacity 2000, slot 79 holds 14472334024676220 and a later
call with `y = 79` returns it, not `F 79 = 14472334024676221`. -/
theorem C8_fails_at_79 :
    IEEE.Reachable 2000 (IEEE.filled 2000 1) ∧ (2 : Int) ≤ 79 ∧
      (79 : Int) < ((2000 : Nat) : Int) ∧
      ((IEEE.filled 2000 1).cached_fibCpp 79).1
        = IEEE.Outcome.value (IEEE.Dbl.fin 14472334024676220) ∧
      ((IEEE.filled 2000 1).cached_fibCpp 79).2.1.read 79
        = some (IEEE.Dbl.fin 14472334024676220) ∧
      (((IEEE.filled 2000 1).cached_fibCpp 79).2.1.cached_fibCpp 79).1
        = IEEE.Outcome.value (IEEE.Dbl.fin 14472334024676220) ∧
      F 79 = 14472334024676221 := by
  obtain ⟨l, e⟩ := IEEE.filled_call64 2000 79 1 (by decide) (by decide) (by decide)
  have e' : (IEEE.filled 2000 1).cached_fibCpp 79
      = (IEEE.Outcome.value (IEEE.Fd 79), IEEE.filled 2000 79, l) := e
  have hit := IEEE.filled_hit64 2000 79 79 (by decide) (by decide) (by decide) (by decide)
  refine ⟨IEEE.Reachable.init _ (IEEE.new_eq64 2000 (by decide)), by decide, by decide,
    ?_, ?_, ?_, IEEE.F_79⟩
  · rw [e', IEEE.Fd_79]
  · rw [e']
    simp only
    rw [IEEE.filled_read_known64 2000 79 79 (by decide) (by decide) (by decide)]
    exact congrArg some IEEE.Fd_79
  · rw [e']
    simp only
    rw [hit]
    exact congrArg IEEE.Outcome.value IEEE.Fd_79

/-- C8 (amended): after a successful `Fib::cached_fibCpp(x)` with `2 ≤ x < N`
on a cache reachable from construction, and after any further calls, every
slot `i` with `0 ≤ i ≤ x` is known and holds the `i`-th term of the Fibonacci
recurrence in IEEE double arithmetic (`F i` whenever `F i < 2^53`); a call with
`2 ≤ y ≤ x` then returns that value (`F y` whenever `F y < 2^53`), leaves the
table as it is, and only reads slot `y` (no store, no addition, no nested
call). -/
theorem C8_monotonic_fill_rounded (N : Nat) (f : IEEE.Fib) (x : Int) (hN : 2 ≤ N)
    (hr : IEEE.Reachable N f) (h2 : 2 ≤ x) (hx : x < (N : Int))
    (hs : ∃ d : IEEE.Dbl, (f.cached_fibCpp x).1 = IEEE.Outcome.value d) :
    ∀ g : IEEE.Fib, IEEE.ReachableFrom (f.cached_fibCpp x).2.1 g →
      (∀ i : Int, 0 ≤ i → i ≤ x →
        g.read i = some (IEEE.Fd i.toNat) ∧ (IEEE.Fd i.toNat).isnan = false ∧
          (F i.toNat < 2 ^ 53 → g.read i = some (IEEE.Dbl.fin (F i.toNat)))) ∧
      ∀ y : Int, 2 ≤ y → y ≤ x →
        g.cached_fibCpp y
            = (IEEE.Outcome.value (IEEE.Fd y.toNat), g,
                [IEEE.Event.read y, IEEE.Event.read y]) ∧
          (F y.toNat < 2 ^ 53 →
            (g.cached_fibCpp y).1 = IEEE.Outcome.value (IEEE.Dbl.fin (F y.toNat))) := by
  have hle := toInt32_le N
  have hlt : x < toInt32 N := by
    by_contra hge
    obtain ⟨k, -, -, rfl⟩ := IEEE.reachable_filled64 N hN f hr
    obtain ⟨d, hd⟩ := hs
    rw [IEEE.Fib.call_range64 _ x (by omega) (by rw [IEEE.filled_length64]; omega)] at hd
    cases hd
  obtain ⟨k, l, hk, hkN, -, e⟩ := IEEE.reachable_call64 N hN f hr x (by omega) hlt
  rw [e]
  intro g hg
  have hmN : max k x.toNat < N := by
    apply max_lt hkN
    omega
  obtain ⟨k', hkk, hk'N, rfl⟩ :=
    IEEE.reachableFrom_filled64 N (max k x.toNat) (le_trans hk (le_max_left _ _)) hmN g hg
  have hxk : x.toNat ≤ k' := le_trans (le_max_right k x.toNat) hkk
  have hread : ∀ i : Int, 0 ≤ i → i ≤ x →
      (IEEE.filled N k').read i = some (IEEE.Fd i.toNat) := by
    intro i hi0 hix
    exact IEEE.filled_read_known64 N k' i hi0 (by omega) hk'N
  constructor
  · intro i hi0 hix
    refine ⟨hread i hi0 hix, IEEE.Fd_isnan _, ?_⟩
    intro hexact
    rw [hread i hi0 hix, IEEE.Fd_exact _ hexact]
  · intro y hy2 hyx
    have hit := IEEE.filled_hit64 N k' y hk'N hy2 (by omega) (by omega)
    refine ⟨hit, ?_⟩
    intro hexact
    rw [hit, IEEE.Fd_exact _ hexact]

/-- C8 (amended) on the cache of capacity 2000: after the call with argument
50 on the fresh cache and a further call with argument 7, the call with
argument 30 returns `F 30`. -/
theorem C8_monotonic_fill_rounded_witness :
    (2 ≤ 2000 ∧ IEEE.Reachable 2000 (IEEE.filled 2000 1) ∧ (2 : Int) ≤ 50 ∧
      (50 : Int) < ((2000 : Nat) : Int) ∧
      (∃ d : IEEE.Dbl, ((IEEE.filled 2000 1).cached_fibCpp 50).1 = IEEE.Outcome.value d) ∧
      IEEE.ReachableFrom ((IEEE.filled 2000 1).cached_fibCpp 50).2.1
        ((((IEEE.filled 2000 1).cached_fibCpp 50).2.1).cached_fibCpp 7).2.1) ∧
      (((((IEEE.filled 2000 1).cached_fibCpp 50).2.1).cached_fibCpp 7).2.1.cached_fibCpp 30).1
        = IEEE.Outcome.value (IEEE.Dbl.fin (F (30 : Int).toNat)) :=
  have hs : ∃ d : IEEE.Dbl, ((IEEE.filled 2000 1).cached_fibCpp 50).1 = IEEE.Outcome.value d :=
    (IEEE.filled_call64 2000 50 1 (by decide) (by decide) (by decide)).elim
      fun _ h => ⟨_, congrArg Prod.fst h⟩
  have hr : IEEE.Reachable 2000 (IEEE.filled 2000 1) :=
    IEEE.Reachable.init _ (IEEE.new_eq64 2000 (by decide))
  have hg : IEEE.ReachableFrom ((IEEE.filled 2000 1).cached_fibCpp 50).2.1
      ((((IEEE.filled 2000 1).cached_fibCpp 50).2.1).cached_fibCpp 7).2.1 :=
    IEEE.ReachableFrom.step _ 7 IEEE.ReachableFrom.refl
  ⟨⟨by decide, hr, by decide, by decide, hs, hg⟩,
    ((C8_monotonic_fill_rounded 2000 _ 50 (by decide) hr (by decide) (by decide) hs _ hg).2 30
      (by decide) (by decide)).2 ((IEEE.F_lt_iff 30).2 (by decide))⟩

end RcppFib
